import Mathlib

/-!
Verification of the crowd-anomaly-detection core: a shallow embedding of
`backend/tracking/deepsort.py` and the four anomaly detectors
(`backend/anomaly/overcrowding.py`, `loitering.py`, `zone_violation.py`,
`suspicious_activity.py`), with theorems settling the frozen claims.

Modelling conventions:
* Python floats are idealised as exact rationals (`ℚ`); the source's literal
  constants (`1e-6`, `1.2`, ...) are taken at their exact decimal value.
* Quantities that the source obtains from external libraries (the filterpy
  Kalman filter's numeric output, scipy's `linear_sum_assignment`, shapely's
  polygon containment) are oracle parameters of the embedded functions; the
  repository's own control flow around them is embedded exactly.
* Square roots (`np.sqrt`, `np.linalg.norm`) force real numbers; where a
  comparison `sqrt d < p` occurs in the source it is embedded as the
  equivalent `0 < p ∧ d < p^2` (distances are nonnegative), keeping the
  definition inside `ℚ`.  The pose detector averages square roots, so its
  embedding lives in `ℝ` with `Real.sqrt`.
-/

/-- Axis-aligned box `[x1, y1, x2, y2]`, as used throughout `deepsort.py`. -/
structure Box where
  x1 : ℚ
  y1 : ℚ
  x2 : ℚ
  y2 : ℚ
deriving DecidableEq

/-- Zero box, used only as the junk default of out-of-range list reads. -/
def boxZero : Box := ⟨0, 0, 0, 0⟩

/-- The literal `1e-6` appearing in `deepsort.py`. -/
def eps : ℚ := 1 / 1000000

/-- Embedding of `DeepSORT._iou` (deepsort.py lines 233-248):
intersection over union with the `1e-6` guard added to the denominator. -/
def iou (a b : Box) : ℚ :=
  let ix1 := max a.x1 b.x1
  let iy1 := max a.y1 b.y1
  let ix2 := min a.x2 b.x2
  let iy2 := min a.y2 b.y2
  let interArea := max 0 (ix2 - ix1) * max 0 (iy2 - iy1)
  let area1 := (a.x2 - a.x1) * (a.y2 - a.y1)
  let area2 := (b.x2 - b.x1) * (b.y2 - b.y1)
  interArea / (area1 + area2 - interArea + eps)

/-- Area of a box, `(x2 - x1) * (y2 - y1)`. -/
def boxArea (a : Box) : ℚ := (a.x2 - a.x1) * (a.y2 - a.y1)

lemma iou_def (a b : Box) :
    iou a b = max 0 (min a.x2 b.x2 - max a.x1 b.x1) * max 0 (min a.y2 b.y2 - max a.y1 b.y1) /
      (boxArea a + boxArea b -
        max 0 (min a.x2 b.x2 - max a.x1 b.x1) * max 0 (min a.y2 b.y2 - max a.y1 b.y1) + eps) := rfl

lemma inter_le_area1 (a b : Box) (hw : 0 < a.x2 - a.x1) (hh : 0 < a.y2 - a.y1) :
    max 0 (min a.x2 b.x2 - max a.x1 b.x1) * max 0 (min a.y2 b.y2 - max a.y1 b.y1) ≤ boxArea a := by
  have hx : max 0 (min a.x2 b.x2 - max a.x1 b.x1) ≤ a.x2 - a.x1 := by
    apply max_le (le_of_lt hw)
    have h1 : min a.x2 b.x2 ≤ a.x2 := min_le_left _ _
    have h2 : a.x1 ≤ max a.x1 b.x1 := le_max_left _ _
    linarith
  have hy : max 0 (min a.y2 b.y2 - max a.y1 b.y1) ≤ a.y2 - a.y1 := by
    apply max_le (le_of_lt hh)
    have h1 : min a.y2 b.y2 ≤ a.y2 := min_le_left _ _
    have h2 : a.y1 ≤ max a.y1 b.y1 := le_max_left _ _
    linarith
  have hx0 : (0 : ℚ) ≤ max 0 (min a.x2 b.x2 - max a.x1 b.x1) := le_max_left _ _
  have hy0 : (0 : ℚ) ≤ max 0 (min a.y2 b.y2 - max a.y1 b.y1) := le_max_left _ _
  calc max 0 (min a.x2 b.x2 - max a.x1 b.x1) * max 0 (min a.y2 b.y2 - max a.y1 b.y1)
      ≤ (a.x2 - a.x1) * max 0 (min a.y2 b.y2 - max a.y1 b.y1) := by
        exact mul_le_mul_of_nonneg_right hx hy0
    _ ≤ (a.x2 - a.x1) * (a.y2 - a.y1) := by
        exact mul_le_mul_of_nonneg_left hy (le_of_lt hw)

lemma inter_le_area2 (a b : Box) (hw : 0 < b.x2 - b.x1) (hh : 0 < b.y2 - b.y1) :
    max 0 (min a.x2 b.x2 - max a.x1 b.x1) * max 0 (min a.y2 b.y2 - max a.y1 b.y1) ≤ boxArea b := by
  have hx : max 0 (min a.x2 b.x2 - max a.x1 b.x1) ≤ b.x2 - b.x1 := by
    apply max_le (le_of_lt hw)
    have h1 : min a.x2 b.x2 ≤ b.x2 := min_le_right _ _
    have h2 : b.x1 ≤ max a.x1 b.x1 := le_max_right _ _
    linarith
  have hy : max 0 (min a.y2 b.y2 - max a.y1 b.y1) ≤ b.y2 - b.y1 := by
    apply max_le (le_of_lt hh)
    have h1 : min a.y2 b.y2 ≤ b.y2 := min_le_right _ _
    have h2 : b.y1 ≤ max a.y1 b.y1 := le_max_right _ _
    linarith
  have hx0 : (0 : ℚ) ≤ max 0 (min a.x2 b.x2 - max a.x1 b.x1) := le_max_left _ _
  have hy0 : (0 : ℚ) ≤ max 0 (min a.y2 b.y2 - max a.y1 b.y1) := le_max_left _ _
  calc max 0 (min a.x2 b.x2 - max a.x1 b.x1) * max 0 (min a.y2 b.y2 - max a.y1 b.y1)
      ≤ (b.x2 - b.x1) * max 0 (min a.y2 b.y2 - max a.y1 b.y1) := by
        exact mul_le_mul_of_nonneg_right hx hy0
    _ ≤ (b.x2 - b.x1) * (b.y2 - b.y1) := by
        exact mul_le_mul_of_nonneg_left hy (le_of_lt hw)

/-- Claim C4 fails on the code: because the source divides by `union + 1e-6`,
the IOU of a box with itself is `A/(A + 1e-6)`, never exactly `1`.  On the
unit square it is `1000000/1000001`. -/
theorem c4_iou_self_counterexample : iou ⟨0, 0, 1, 1⟩ ⟨0, 0, 1, 1⟩ ≠ 1 := by
  have h : iou ⟨0, 0, 1, 1⟩ ⟨0, 0, 1, 1⟩ = 1000000 / 1000001 := by
    norm_num [iou_def, boxArea, eps]
  rw [h]
  norm_num

/-- Claim C4, amended: for boxes of positive width and height the IOU lies in
`[0, 1)` (so in `[0, 1]` but never exactly `1`), it is symmetric, and the IOU
of a box with itself is exactly `area/(area + 1e-6)` rather than `1`. -/
theorem c4_iou_bounds_symm (a b : Box)
    (ha1 : 0 < a.x2 - a.x1) (ha2 : 0 < a.y2 - a.y1)
    (hb1 : 0 < b.x2 - b.x1) (hb2 : 0 < b.y2 - b.y1) :
    0 ≤ iou a b ∧ iou a b < 1 ∧ iou a b = iou b a ∧
      iou a a = boxArea a / (boxArea a + eps) := by
  have hinter0 : (0 : ℚ) ≤ max 0 (min a.x2 b.x2 - max a.x1 b.x1) *
      max 0 (min a.y2 b.y2 - max a.y1 b.y1) :=
    mul_nonneg (le_max_left _ _) (le_max_left _ _)
  have hA := inter_le_area1 a b ha1 ha2
  have hB := inter_le_area2 a b hb1 hb2
  have heps : (0 : ℚ) < eps := by norm_num [eps]
  have hdenpos : 0 < boxArea a + boxArea b -
      max 0 (min a.x2 b.x2 - max a.x1 b.x1) * max 0 (min a.y2 b.y2 - max a.y1 b.y1) + eps := by
    linarith
  refine ⟨?_, ?_, ?_, ?_⟩
  · rw [iou_def]
    exact div_nonneg hinter0 (le_of_lt hdenpos)
  · rw [iou_def]
    rw [div_lt_one hdenpos]
    linarith
  · rw [iou_def, iou_def]
    rw [max_comm a.x1 b.x1, max_comm a.y1 b.y1, min_comm a.x2 b.x2, min_comm a.y2 b.y2,
      add_comm (boxArea a) (boxArea b)]
  · have hx : max 0 (min a.x2 a.x2 - max a.x1 a.x1) = a.x2 - a.x1 := by
      rw [min_self, max_self]
      exact max_eq_right (le_of_lt ha1)
    have hy : max 0 (min a.y2 a.y2 - max a.y1 a.y1) = a.y2 - a.y1 := by
      rw [min_self, max_self]
      exact max_eq_right (le_of_lt ha2)
    rw [iou_def, hx, hy]
    have : boxArea a + boxArea a - (a.x2 - a.x1) * (a.y2 - a.y1) + eps = boxArea a + eps := by
      simp only [boxArea]; ring
    rw [this]
    rfl

/-- Witness for `c4_iou_bounds_symm` at two concrete overlapping boxes. -/
theorem c4_iou_bounds_symm_witness :
    0 ≤ iou ⟨0, 0, 2, 3⟩ ⟨1, 1, 5, 4⟩ ∧ iou ⟨0, 0, 2, 3⟩ ⟨1, 1, 5, 4⟩ < 1 ∧
      iou ⟨0, 0, 2, 3⟩ ⟨1, 1, 5, 4⟩ = iou ⟨1, 1, 5, 4⟩ ⟨0, 0, 2, 3⟩ ∧
      iou ⟨0, 0, 2, 3⟩ ⟨0, 0, 2, 3⟩ = boxArea ⟨0, 0, 2, 3⟩ / (boxArea ⟨0, 0, 2, 3⟩ + eps) :=
  c4_iou_bounds_symm ⟨0, 0, 2, 3⟩ ⟨1, 1, 5, 4⟩ (by norm_num) (by norm_num) (by norm_num)
    (by norm_num)

/-- Entry `(d, t)` of the pairwise IOU matrix built in
`_associate_detections_to_trackers` (deepsort.py lines 192-196). -/
def iouAt (dets trks : List Box) (d t : ℕ) : ℚ :=
  iou (dets.getD d boxZero) (trks.getD t boxZero)

/-- Bit `(d, t)` of the binary matrix `a = (iou_matrix > iou_threshold)`
(deepsort.py line 199); the source thresholds strictly. -/
def bitAt (dets trks : List Box) (thr : ℚ) (d t : ℕ) : Bool :=
  decide (thr < iouAt dets trks d t)

/-- The pairs extracted by `np.stack(np.where(a), axis=1)` in row-major
order: all `(d, t)` whose binary-matrix bit is set. -/
def thresholdedPairs (dets trks : List Box) (thr : ℚ) : List (ℕ × ℕ) :=
  (List.range dets.length).flatMap (fun d =>
    ((List.range trks.length).filter (fun t => bitAt dets trks thr d t)).map (fun t => (d, t)))

/-- Row sum `a.sum(1)[d]` of the binary matrix. -/
def rowSum (dets trks : List Box) (thr : ℚ) (d : ℕ) : ℕ :=
  (List.range trks.length).countP (fun t => bitAt dets trks thr d t)

/-- Column sum `a.sum(0)[t]` of the binary matrix. -/
def colSum (dets trks : List Box) (thr : ℚ) (t : ℕ) : ℕ :=
  (List.range dets.length).countP (fun d => bitAt dets trks thr d t)

/-- The value `a.sum(1).max()` (deepsort.py line 200). -/
def maxRowSum (dets trks : List Box) (thr : ℚ) : ℕ :=
  ((List.range dets.length).map (rowSum dets trks thr)).foldr max 0

/-- The value `a.sum(0).max()` (deepsort.py line 200). -/
def maxColSum (dets trks : List Box) (thr : ℚ) : ℕ :=
  ((List.range trks.length).map (colSum dets trks thr)).foldr max 0

/-- The cost matrix `-iou_matrix` handed to the external optimal solver
(deepsort.py line 203). -/
def negCost (dets trks : List Box) : List (List ℚ) :=
  dets.map (fun db => trks.map (fun tb => -(iou db tb)))

/-- The `matched_indices` of `_associate_detections_to_trackers`
(deepsort.py lines 198-205): the fast path accepts the thresholded pairs when
both maxima of the binary matrix's row and column sums equal 1, otherwise the
external optimal solver `lsa` (scipy's `linear_sum_assignment`, an oracle
parameter here) is run on `-iou_matrix`; an empty detection list yields an
empty index array. -/
def matchedIdxs (lsa : List (List ℚ) → List (ℕ × ℕ)) (dets trks : List Box) (thr : ℚ) :
    List (ℕ × ℕ) :=
  if 0 < dets.length then
    if maxRowSum dets trks thr = 1 ∧ maxColSum dets trks thr = 1 then
      thresholdedPairs dets trks thr
    else lsa (negCost dets trks)
  else []

/-- Embedding of `DeepSORT._associate_detections_to_trackers`
(deepsort.py lines 182-231).  Returns `(matches, unmatched detection indices,
unmatched tracker indices)`; pairs of `matched_indices` whose IOU is below the
threshold are rejected and their indices appended to the unmatched pools. -/
def associate (lsa : List (List ℚ) → List (ℕ × ℕ)) (dets trks : List Box) (thr : ℚ) :
    List (ℕ × ℕ) × List ℕ × List ℕ :=
  if trks.length = 0 then ([], List.range dets.length, [])
  else
    let mi := matchedIdxs lsa dets trks thr
    let um0 := (List.range dets.length).filter (fun d => !((mi.map Prod.fst).contains d))
    let ut0 := (List.range trks.length).filter (fun t => !((mi.map Prod.snd).contains t))
    let rej := mi.filter (fun m => decide (iouAt dets trks m.1 m.2 < thr))
    let kept := mi.filter (fun m => !(decide (iouAt dets trks m.1 m.2 < thr)))
    (kept, um0 ++ rej.map Prod.fst, ut0 ++ rej.map Prod.snd)

lemma flatMap_sublist_self (l : List ℕ) (g : ℕ → List ℕ)
    (hval : ∀ d ∈ l, ∀ x ∈ g d, x = d) (hlen : ∀ d ∈ l, (g d).length ≤ 1) :
    (l.flatMap g).Sublist l := by
  induction l with
  | nil => simp
  | cons a l ih =>
    have ihl : (l.flatMap g).Sublist l := by
      apply ih
      · intro d hd x hx
        exact hval d (List.mem_cons_of_mem a hd) x hx
      · intro d hd
        exact hlen d (List.mem_cons_of_mem a hd)
    rw [List.flatMap_cons]
    match hga : g a with
    | [] =>
      simp only [List.nil_append]
      exact ihl.cons a
    | [x] =>
      have hx : x = a := hval a (List.mem_cons_self a l) x (by rw [hga]; exact List.mem_singleton_self x)
      rw [hx]
      exact ihl.cons₂ a
    | x :: y :: t =>
      have := hlen a (List.mem_cons_self a l)
      rw [hga] at this
      simp at this

lemma mem_thresholdedPairs {dets trks : List Box} {thr : ℚ} {m : ℕ × ℕ} :
    m ∈ thresholdedPairs dets trks thr ↔
      m.1 < dets.length ∧ m.2 < trks.length ∧ bitAt dets trks thr m.1 m.2 := by
  unfold thresholdedPairs
  rw [List.mem_flatMap]
  constructor
  · rintro ⟨d, hd, hm⟩
    rw [List.mem_map] at hm
    obtain ⟨t, ht, hmt⟩ := hm
    rw [List.mem_filter, List.mem_range] at ht
    subst hmt
    exact ⟨List.mem_range.mp hd, ht.1, ht.2⟩
  · rintro ⟨h1, h2, h3⟩
    refine ⟨m.1, List.mem_range.mpr h1, ?_⟩
    rw [List.mem_map]
    exact ⟨m.2, List.mem_filter.mpr ⟨List.mem_range.mpr h2, h3⟩, rfl⟩

lemma thresholdedPairs_fst_nodup (dets trks : List Box) (thr : ℚ)
    (hrow : ∀ d < dets.length, rowSum dets trks thr d ≤ 1) :
    ((thresholdedPairs dets trks thr).map Prod.fst).Nodup := by
  unfold thresholdedPairs
  rw [List.map_flatMap]
  have heq : ∀ d, ((((List.range trks.length).filter
      (fun t => bitAt dets trks thr d t)).map (fun t => (d, t))).map Prod.fst) =
      ((List.range trks.length).filter (fun t => bitAt dets trks thr d t)).map (fun _ => d) := by
    intro d
    rw [List.map_map]
    rfl
  simp only [heq]
  apply List.Nodup.sublist _ (List.nodup_range dets.length)
  apply flatMap_sublist_self
  · intro d _ x hx
    rw [List.mem_map] at hx
    obtain ⟨t, _, h⟩ := hx
    exact h.symm
  · intro d hd
    rw [List.length_map, ← List.countP_eq_length_filter]
    exact hrow d (List.mem_range.mp hd)

lemma sum_map_ite_eq_countP (l : List ℕ) (p : ℕ → Bool) :
    (l.map (fun a => if p a then 1 else 0)).sum = l.countP p := by
  induction l with
  | nil => rfl
  | cons a l ih =>
    rw [List.map_cons, List.sum_cons, List.countP_cons, ih]
    by_cases h : p a
    · simp [h]; omega
    · simp [h]

lemma thresholdedPairs_snd_nodup (dets trks : List Box) (thr : ℚ)
    (hcol : ∀ t < trks.length, colSum dets trks thr t ≤ 1) :
    ((thresholdedPairs dets trks thr).map Prod.snd).Nodup := by
  unfold thresholdedPairs
  rw [List.map_flatMap]
  have heq : ∀ d, ((((List.range trks.length).filter
      (fun t => bitAt dets trks thr d t)).map (fun t => (d, t))).map Prod.snd) =
      (List.range trks.length).filter (fun t => bitAt dets trks thr d t) := by
    intro d
    rw [List.map_map]
    exact List.map_id _
  simp only [heq]
  rw [List.nodup_iff_count_le_one]
  intro t
  rw [List.count_flatMap]
  have hterm : ∀ d, (List.count t ∘ fun d =>
      (List.range trks.length).filter (fun s => bitAt dets trks thr d s)) d =
      if (bitAt dets trks thr d t && decide (t < trks.length)) then 1 else 0 := by
    intro d
    simp only [Function.comp_apply]
    by_cases hb : bitAt dets trks thr d t ∧ t < trks.length
    · rw [List.count_eq_one_of_mem]
      · simp [hb.1, hb.2]
      · exact List.Nodup.filter _ (List.nodup_range _)
      · rw [List.mem_filter, List.mem_range]
        exact ⟨hb.2, hb.1⟩
    · rw [List.count_eq_zero.mpr]
      · rcases Decidable.not_and_iff_or_not.mp hb with h | h <;> simp [h]
      · intro hmem
        rw [List.mem_filter, List.mem_range] at hmem
        exact hb ⟨hmem.2, hmem.1⟩
  rw [List.map_congr_left (fun d _ => hterm d), sum_map_ite_eq_countP]
  by_cases ht : t < trks.length
  · have : ((List.range dets.length).countP
        (fun d => bitAt dets trks thr d t && decide (t < trks.length))) =
        colSum dets trks thr t := by
      unfold colSum
      apply List.countP_congr
      intro d _
      simp [ht]
    rw [this]
    exact hcol t ht
  · rw [List.countP_eq_zero.mpr]
    · omega
    · intro d _
      simp [ht]

lemma le_foldr_max (l : List ℕ) (x : ℕ) (hx : x ∈ l) : x ≤ l.foldr max 0 := by
  induction l with
  | nil => cases hx
  | cons a l ih =>
    rw [List.foldr_cons]
    rcases List.mem_cons.mp hx with h | h
    · subst h; exact le_max_left _ _
    · exact le_trans (ih h) (le_max_right _ _)

lemma foldr_max_le (l : List ℕ) (c : ℕ) (hc : ∀ x ∈ l, x ≤ c) : l.foldr max 0 ≤ c := by
  induction l with
  | nil => simp
  | cons a l ih =>
    rw [List.foldr_cons]
    apply max_le (hc a (List.mem_cons_self a l))
    exact ih (fun x hx => hc x (List.mem_cons_of_mem a hx))

lemma maxSums_eq_one (dets trks : List Box) (thr : ℚ)
    (hrow : ∀ d < dets.length, rowSum dets trks thr d ≤ 1)
    (hcol : ∀ t < trks.length, colSum dets trks thr t ≤ 1)
    (hex : ∃ d t, d < dets.length ∧ t < trks.length ∧ bitAt dets trks thr d t = true) :
    maxRowSum dets trks thr = 1 ∧ maxColSum dets trks thr = 1 := by
  obtain ⟨d0, t0, hd0, ht0, hb0⟩ := hex
  constructor
  · apply le_antisymm
    · apply foldr_max_le
      intro x hx
      rw [List.mem_map] at hx
      obtain ⟨d, hd, hdx⟩ := hx
      subst hdx
      exact hrow d (List.mem_range.mp hd)
    · have h1 : 0 < rowSum dets trks thr d0 := by
        unfold rowSum
        rw [List.countP_pos_iff]
        exact ⟨t0, List.mem_range.mpr ht0, hb0⟩
      refine le_trans h1 (le_foldr_max _ _ ?_)
      rw [List.mem_map]
      exact ⟨d0, List.mem_range.mpr hd0, rfl⟩
  · apply le_antisymm
    · apply foldr_max_le
      intro x hx
      rw [List.mem_map] at hx
      obtain ⟨t, ht, htx⟩ := hx
      subst htx
      exact hcol t (List.mem_range.mp ht)
    · have h1 : 0 < colSum dets trks thr t0 := by
        unfold colSum
        rw [List.countP_pos_iff]
        exact ⟨d0, List.mem_range.mpr hd0, hb0⟩
      refine le_trans h1 (le_foldr_max _ _ ?_)
      rw [List.mem_map]
      exact ⟨t0, List.mem_range.mpr ht0, rfl⟩

lemma rowSum_le_of_maxRowSum (dets trks : List Box) (thr : ℚ)
    (h : maxRowSum dets trks thr = 1) : ∀ d < dets.length, rowSum dets trks thr d ≤ 1 := by
  intro d hd
  rw [← h]
  apply le_foldr_max
  rw [List.mem_map]
  exact ⟨d, List.mem_range.mpr hd, rfl⟩

lemma colSum_le_of_maxColSum (dets trks : List Box) (thr : ℚ)
    (h : maxColSum dets trks thr = 1) : ∀ t < trks.length, colSum dets trks thr t ≤ 1 := by
  intro t ht
  rw [← h]
  apply le_foldr_max
  rw [List.mem_map]
  exact ⟨t, List.mem_range.mpr ht, rfl⟩

lemma matchedIdxs_nodup (lsa : List (List ℚ) → List (ℕ × ℕ)) (dets trks : List Box) (thr : ℚ)
    (hlsa : ∀ M, ((lsa M).map Prod.fst).Nodup ∧ ((lsa M).map Prod.snd).Nodup) :
    ((matchedIdxs lsa dets trks thr).map Prod.fst).Nodup ∧
      ((matchedIdxs lsa dets trks thr).map Prod.snd).Nodup := by
  unfold matchedIdxs
  split
  · split
    · next hcond =>
      exact ⟨thresholdedPairs_fst_nodup dets trks thr
          (rowSum_le_of_maxRowSum dets trks thr hcond.1),
        thresholdedPairs_snd_nodup dets trks thr
          (colSum_le_of_maxColSum dets trks thr hcond.2)⟩
    · exact hlsa _
  · simp

lemma associate_eq (lsa : List (List ℚ) → List (ℕ × ℕ)) (dets trks : List Box) (thr : ℚ)
    (h : trks.length ≠ 0) :
    associate lsa dets trks thr =
      ((matchedIdxs lsa dets trks thr).filter
          (fun m => !(decide (iouAt dets trks m.1 m.2 < thr))),
        (List.range dets.length).filter
            (fun d => !(((matchedIdxs lsa dets trks thr).map Prod.fst).contains d)) ++
          ((matchedIdxs lsa dets trks thr).filter
            (fun m => decide (iouAt dets trks m.1 m.2 < thr))).map Prod.fst,
        (List.range trks.length).filter
            (fun t => !(((matchedIdxs lsa dets trks thr).map Prod.snd).contains t)) ++
          ((matchedIdxs lsa dets trks thr).filter
            (fun m => decide (iouAt dets trks m.1 m.2 < thr))).map Prod.snd) := by
  unfold associate
  rw [if_neg h]

/-- Claim C3, amended: the matches returned by the association step use each
detection index and each tracker index at most once, every returned match has
IOU at least `iou_threshold`, and any pair of `matched_indices` whose IOU is
below the threshold is moved into both unmatched pools.  The fast path
returns exactly the thresholded pairs when the binary matrix has at most one
set bit per row and per column AND at least one set bit (the source tests
`a.sum(1).max() == 1 and a.sum(0).max() == 1`); for the all-zero binary
matrix the optimal solver runs instead and may keep a pair whose IOU equals
the threshold exactly (see `c3_fastpath_counterexample`). -/
theorem c3_association (lsa : List (List ℚ) → List (ℕ × ℕ)) (dets trks : List Box) (thr : ℚ)
    (hlsa : ∀ M, ((lsa M).map Prod.fst).Nodup ∧ ((lsa M).map Prod.snd).Nodup) :
    (((associate lsa dets trks thr).1.map Prod.fst).Nodup ∧
      ((associate lsa dets trks thr).1.map Prod.snd).Nodup) ∧
    (∀ m ∈ (associate lsa dets trks thr).1, thr ≤ iouAt dets trks m.1 m.2) ∧
    (trks.length ≠ 0 → ∀ m ∈ matchedIdxs lsa dets trks thr,
      iouAt dets trks m.1 m.2 < thr →
      m.1 ∈ (associate lsa dets trks thr).2.1 ∧ m.2 ∈ (associate lsa dets trks thr).2.2) ∧
    ((∀ d < dets.length, rowSum dets trks thr d ≤ 1) →
      (∀ t < trks.length, colSum dets trks thr t ≤ 1) →
      (∃ d t, d < dets.length ∧ t < trks.length ∧ bitAt dets trks thr d t = true) →
      (associate lsa dets trks thr).1 = thresholdedPairs dets trks thr) := by
  by_cases htrks : trks.length = 0
  · refine ⟨?_, ?_, ?_, ?_⟩
    · unfold associate
      rw [if_pos htrks]
      simp
    · unfold associate
      rw [if_pos htrks]
      intro m hm
      simp at hm
    · intro h
      exact absurd htrks h
    · intro _ _ hex
      obtain ⟨d0, t0, _, ht0, _⟩ := hex
      omega
  · rw [associate_eq lsa dets trks thr htrks]
    have hnd := matchedIdxs_nodup lsa dets trks thr hlsa
    refine ⟨⟨?_, ?_⟩, ?_, ?_, ?_⟩
    · exact List.Nodup.sublist (List.Sublist.map Prod.fst (List.filter_sublist _)) hnd.1
    · exact List.Nodup.sublist (List.Sublist.map Prod.snd (List.filter_sublist _)) hnd.2
    · intro m hm
      have := (List.mem_filter.mp hm).2
      simp only [Bool.not_eq_true', decide_eq_false_iff_not, not_lt] at this
      exact this
    · intro _ m hm hlow
      constructor
      · apply List.mem_append_right
        rw [List.mem_map]
        exact ⟨m, List.mem_filter.mpr ⟨hm, by simp [hlow]⟩, rfl⟩
      · apply List.mem_append_right
        rw [List.mem_map]
        exact ⟨m, List.mem_filter.mpr ⟨hm, by simp [hlow]⟩, rfl⟩
    · intro hrow hcol hex
      have hcond := maxSums_eq_one dets trks thr hrow hcol hex
      have hdets : 0 < dets.length := by
        obtain ⟨d0, _, hd0, _, _⟩ := hex
        omega
      have hmi : matchedIdxs lsa dets trks thr = thresholdedPairs dets trks thr := by
        unfold matchedIdxs
        rw [if_pos hdets, if_pos hcond]
      rw [hmi]
      rw [List.filter_eq_self]
      intro m hm
      have hbit := (mem_thresholdedPairs.mp hm).2.2
      unfold bitAt at hbit
      rw [decide_eq_true_iff] at hbit
      simp only [Bool.not_eq_true', decide_eq_false_iff_not, not_lt]
      exact le_of_lt hbit

/-- Stand-in for the external optimal assignment solver
(`scipy.optimize.linear_sum_assignment`, outside this repository).
Modelled from the spec: step 3 of the association solver solves the
assignment problem over the full bipartite graph with an optimal
bipartite-matching algorithm, and on a one-row cost matrix every such solver
returns the single complete assignment pairing row 0 with its best column —
for a 1-by-1 matrix, the pair `(0, 0)`.  Only that shape is consumed by the
theorems below. -/
def lsaOneByOne (costM : List (List ℚ)) : List (ℕ × ℕ) :=
  if costM.length = 1 then [(0, 0)] else []

/-- Detection list of the C3 counterexample. -/
def detsCx : List Box := [⟨0, 0, 5, 1⟩]

/-- Tracker-box list of the C3 counterexample, chosen so that the single
pairwise IOU is exactly `3/10 = iou_threshold`. -/
def trksCx : List Box := [⟨2, 0, 10 - eps, 1⟩]

/-- Claim C3 fails on the code as stated: with one detection and one tracker
whose IOU is exactly the threshold `3/10`, the binary matrix is all-zero, so
it has at most one set bit in every row and column, yet the code takes the
optimal-solver path (its fast-path test `max == 1` fails), the solver returns
the pair `(0, 0)`, and the rejection filter keeps it because its IOU is not
strictly below the threshold — so the returned matches are not the
thresholded pairs (which are empty). -/
theorem c3_fastpath_counterexample :
    (∀ d < detsCx.length, rowSum detsCx trksCx (3 / 10) d ≤ 1) ∧
    (∀ t < trksCx.length, colSum detsCx trksCx (3 / 10) t ≤ 1) ∧
    thresholdedPairs detsCx trksCx (3 / 10) = [] ∧
    (associate lsaOneByOne detsCx trksCx (3 / 10)).1 = [(0, 0)] := by
  have hiouAt : iouAt detsCx trksCx 0 0 = 3 / 10 := by
    show iou ⟨0, 0, 5, 1⟩ ⟨2, 0, 10 - eps, 1⟩ = 3 / 10
    rw [iou_def]
    norm_num [boxArea, eps, min_def, max_def]
  have hbit : bitAt detsCx trksCx (3 / 10) 0 0 = false := by
    rw [bitAt, hiouAt]
    norm_num
  have hr1 : List.range 1 = [0] := rfl
  have hrow0 : rowSum detsCx trksCx (3 / 10) 0 = 0 := by
    have : trksCx.length = 1 := rfl
    rw [rowSum, this, hr1, List.countP_cons, List.countP_nil, hbit]
    rfl
  have hcol0 : colSum detsCx trksCx (3 / 10) 0 = 0 := by
    have : detsCx.length = 1 := rfl
    rw [colSum, this, hr1, List.countP_cons, List.countP_nil, hbit]
    rfl
  have hthr : thresholdedPairs detsCx trksCx (3 / 10) = [] := by
    have h1 : detsCx.length = 1 := rfl
    have h2 : trksCx.length = 1 := rfl
    rw [thresholdedPairs, h1, h2, hr1]
    simp [hbit]
  have hmrs : maxRowSum detsCx trksCx (3 / 10) = 0 := by
    have h1 : detsCx.length = 1 := rfl
    rw [maxRowSum, h1, hr1, List.map_cons, List.map_nil, List.foldr_cons,
      List.foldr_nil, hrow0]
    exact max_self 0
  have hmi : matchedIdxs lsaOneByOne detsCx trksCx (3 / 10) = [(0, 0)] := by
    rw [matchedIdxs, if_pos (by norm_num [detsCx]), if_neg (by rw [hmrs]; omega)]
    rfl
  refine ⟨?_, ?_, hthr, ?_⟩
  · intro d hd
    have hd0 : d = 0 := by
      have : detsCx.length = 1 := rfl
      omega
    rw [hd0, hrow0]
    omega
  · intro t ht
    have ht0 : t = 0 := by
      have : trksCx.length = 1 := rfl
      omega
    rw [ht0, hcol0]
    omega
  · rw [associate_eq lsaOneByOne detsCx trksCx (3 / 10) (by norm_num [trksCx]), hmi]
    rw [List.filter_cons, List.filter_nil]
    rw [show (!(decide (iouAt detsCx trksCx (0, 0).1 (0, 0).2 < 3 / 10))) = true by
      rw [hiouAt]; norm_num]
    rfl

/-- Witness for `c3_association`, instantiated at the concrete one-detection,
one-tracker input with the modelled 1-by-1 optimal solver. -/
theorem c3_association_witness :
    (((associate lsaOneByOne detsCx trksCx (3 / 10)).1.map Prod.fst).Nodup ∧
      ((associate lsaOneByOne detsCx trksCx (3 / 10)).1.map Prod.snd).Nodup) ∧
    ∀ m ∈ (associate lsaOneByOne detsCx trksCx (3 / 10)).1,
      3 / 10 ≤ iouAt detsCx trksCx m.1 m.2 := by
  have h := c3_association lsaOneByOne detsCx trksCx (3 / 10)
    (fun M => by unfold lsaOneByOne; split <;> simp)
  exact ⟨h.1, h.2.1⟩

/-- Embedding of `KalmanTracker._bbox_to_z` (deepsort.py lines 83-92):
`[x1, y1, x2, y2]` to `(cx, cy, s, r)` with `s = w*h` and `r = w/(h + 1e-6)`. -/
def bboxToZ (b : Box) : ℚ × ℚ × ℚ × ℚ :=
  let w := b.x2 - b.x1
  let h := b.y2 - b.y1
  (b.x1 + w / 2, b.y1 + h / 2, w * h, w / (h + eps))

/-- Embedding of `KalmanTracker._z_to_bbox` (deepsort.py lines 94-103).
The source computes `w = np.sqrt(s * r)`; that square root is irrational for
general rational states, so the value `w` is an explicit argument here, and
every theorem about `zToBbox` constrains it by `0 ≤ w` and `w^2 = s * r`,
the defining property of the nonnegative square root. -/
def zToBbox (z : ℚ × ℚ × ℚ × ℚ) (w : ℚ) : Box :=
  let h := z.2.2.1 / (w + eps)
  ⟨z.1 - w / 2, z.2.1 - h / 2, z.1 + w / 2, z.2.1 + h / 2⟩

/-- Claim C9 fails on the code: for the box `[0, 0, 1, 9/16000000]` (positive
width 1 and positive height), the measurement state has `s*r = 9/25`, whose
exact square root is `3/5`, and converting back yields a box of width `3/5`
instead of `1` — the `1e-6` terms make the round trip wildly inexact for
heights comparable to `1e-6`, not merely off by floating tolerance. -/
theorem c9_roundtrip_counterexample :
    0 ≤ (3 : ℚ) / 5 ∧
    ((3 : ℚ) / 5) ^ 2 =
      (bboxToZ ⟨0, 0, 1, 9 / 16000000⟩).2.2.1 * (bboxToZ ⟨0, 0, 1, 9 / 16000000⟩).2.2.2 ∧
    zToBbox (bboxToZ ⟨0, 0, 1, 9 / 16000000⟩) (3 / 5) ≠ ⟨0, 0, 1, 9 / 16000000⟩ := by
  refine ⟨by norm_num, by norm_num [bboxToZ, eps], ?_⟩
  intro h
  have hx2 := congrArg Box.x2 h
  norm_num [zToBbox, bboxToZ, eps] at hx2

/-- Claim C9, amended: the state conversion round trip recovers the box
center exactly, but the extents only satisfy `w'^2 * (h + 1e-6) = w^2 * h`
(hence `w' < w` strictly) and `h' * (w' + 1e-6) = w * h`; the round trip is
therefore never exact, and for heights comparable to `1e-6` the error is
large (see `c9_roundtrip_counterexample`). -/
theorem c9_roundtrip_center (b : Box) (w' : ℚ)
    (hw : 0 < b.x2 - b.x1) (hh : 0 < b.y2 - b.y1) (hw0 : 0 ≤ w')
    (hsq : w' ^ 2 = (bboxToZ b).2.2.1 * (bboxToZ b).2.2.2) :
    (zToBbox (bboxToZ b) w').x1 + (zToBbox (bboxToZ b) w').x2 = b.x1 + b.x2 ∧
    (zToBbox (bboxToZ b) w').y1 + (zToBbox (bboxToZ b) w').y2 = b.y1 + b.y2 ∧
    w' ^ 2 * ((b.y2 - b.y1) + eps) = (b.x2 - b.x1) ^ 2 * (b.y2 - b.y1) ∧
    w' < b.x2 - b.x1 ∧
    ((zToBbox (bboxToZ b) w').y2 - (zToBbox (bboxToZ b) w').y1) * (w' + eps) =
      (b.x2 - b.x1) * (b.y2 - b.y1) := by
  have heps : (0 : ℚ) < eps := by norm_num [eps]
  have hhe : b.y2 - b.y1 + eps ≠ 0 := by positivity
  have hwe : w' + eps ≠ 0 := by positivity
  have hsq2 : w' ^ 2 * (b.y2 - b.y1 + eps) = (b.x2 - b.x1) ^ 2 * (b.y2 - b.y1) := by
    have : (bboxToZ b).2.2.1 * (bboxToZ b).2.2.2 =
        ((b.x2 - b.x1) * (b.y2 - b.y1)) * ((b.x2 - b.x1) / (b.y2 - b.y1 + eps)) := rfl
    rw [hsq, this]
    field_simp
    ring
  refine ⟨?_, ?_, hsq2, ?_, ?_⟩
  · show (bboxToZ b).1 - w' / 2 + ((bboxToZ b).1 + w' / 2) = b.x1 + b.x2
    show b.x1 + (b.x2 - b.x1) / 2 - w' / 2 + (b.x1 + (b.x2 - b.x1) / 2 + w' / 2) = b.x1 + b.x2
    ring
  · show (bboxToZ b).2.1 - (bboxToZ b).2.2.1 / (w' + eps) / 2 +
      ((bboxToZ b).2.1 + (bboxToZ b).2.2.1 / (w' + eps) / 2) = b.y1 + b.y2
    show b.y1 + (b.y2 - b.y1) / 2 - (bboxToZ b).2.2.1 / (w' + eps) / 2 +
      (b.y1 + (b.y2 - b.y1) / 2 + (bboxToZ b).2.2.1 / (w' + eps) / 2) = b.y1 + b.y2
    ring
  · have hpos : (0 : ℚ) < b.y2 - b.y1 + eps := by linarith
    have hlt : w' ^ 2 * (b.y2 - b.y1 + eps) < (b.x2 - b.x1) ^ 2 * (b.y2 - b.y1 + eps) := by
      rw [hsq2]
      have hsqpos : (0 : ℚ) < (b.x2 - b.x1) ^ 2 := by positivity
      have := mul_lt_mul_of_pos_left (show b.y2 - b.y1 < b.y2 - b.y1 + eps by linarith) hsqpos
      linarith
    have hlt2 : w' ^ 2 < (b.x2 - b.x1) ^ 2 := (mul_lt_mul_right hpos).mp hlt
    exact lt_of_pow_lt_pow_left₀ 2 (le_of_lt hw) hlt2
  · show ((bboxToZ b).2.1 + (bboxToZ b).2.2.1 / (w' + eps) / 2 -
      ((bboxToZ b).2.1 - (bboxToZ b).2.2.1 / (w' + eps) / 2)) * (w' + eps) =
        (b.x2 - b.x1) * (b.y2 - b.y1)
    have hz : (bboxToZ b).2.2.1 = (b.x2 - b.x1) * (b.y2 - b.y1) := rfl
    rw [hz]
    field_simp
    ring

/-- Witness for `c9_roundtrip_center` at the concrete box
`[0, 0, 1, 9/16000000]`, whose state product `s*r = 9/25` has the exact
square root `3/5`. -/
theorem c9_roundtrip_center_witness :
    (zToBbox (bboxToZ ⟨0, 0, 1, 9 / 16000000⟩) (3 / 5)).x1 +
        (zToBbox (bboxToZ ⟨0, 0, 1, 9 / 16000000⟩) (3 / 5)).x2 = 0 + 1 ∧
    (zToBbox (bboxToZ ⟨0, 0, 1, 9 / 16000000⟩) (3 / 5)).y1 +
        (zToBbox (bboxToZ ⟨0, 0, 1, 9 / 16000000⟩) (3 / 5)).y2 = 0 + 9 / 16000000 ∧
    ((3 : ℚ) / 5) ^ 2 * ((9 / 16000000 - 0) + eps) = (1 - 0) ^ 2 * (9 / 16000000 - 0) ∧
    (3 : ℚ) / 5 < 1 - 0 ∧
    ((zToBbox (bboxToZ ⟨0, 0, 1, 9 / 16000000⟩) (3 / 5)).y2 -
        (zToBbox (bboxToZ ⟨0, 0, 1, 9 / 16000000⟩) (3 / 5)).y1) * (3 / 5 + eps) =
      (1 - 0) * (9 / 16000000 - 0) :=
  c9_roundtrip_center ⟨0, 0, 1, 9 / 16000000⟩ (3 / 5) (by norm_num) (by norm_num)
    (by norm_num) (by norm_num [bboxToZ, eps])

/-- Severity levels returned by `OvercrowdingDetector._calculate_severity`. -/
inductive Severity where
  | levelNone
  | levelLow
  | levelMedium
  | levelHigh
deriving DecidableEq

/-- Embedding of `OvercrowdingDetector._calculate_severity`
(overcrowding.py lines 55-73): bucketed by `count/threshold`. -/
def calcSeverity (count threshold : ℤ) : Severity :=
  if count ≤ threshold then .levelNone
  else if (count : ℚ) / (threshold : ℚ) ≤ 12 / 10 then .levelLow
  else if (count : ℚ) / (threshold : ℚ) ≤ 15 / 10 then .levelMedium
  else .levelHigh

/-- Persistent state of `OvercrowdingDetector`: the configured threshold and
the process-wide boolean `alert_active` (initialised `False` by the
constructor). -/
structure OCState where
  threshold : ℤ
  alertActive : Bool
deriving DecidableEq

/-- Result fields of `detect_overcrowding` relevant to the claims. -/
structure OCRes where
  isOvercrowded : Bool
  alertTriggered : Bool
  severity : Severity
deriving DecidableEq

/-- Embedding of `OvercrowdingDetector.detect_overcrowding`
(overcrowding.py lines 24-53) at its default call (no per-call threshold
override): `is_overcrowded = count > threshold`, the alert fires only when
`is_overcrowded` holds and `alert_active` was false, and `alert_active` is
then set to `is_overcrowded`. -/
def detectOvercrowding (s : OCState) (count : ℤ) : OCRes × OCState :=
  let isO : Bool := decide (s.threshold < count)
  let alert := isO && !s.alertActive
  (⟨isO, alert, calcSeverity count s.threshold⟩, ⟨s.threshold, isO⟩)

/-- Alert-flag trace of a sequence of `detect_overcrowding` calls. -/
def runOvercrowding (s : OCState) : List ℤ → List Bool
  | [] => []
  | c :: rest =>
    let r := detectOvercrowding s c
    r.1.alertTriggered :: runOvercrowding r.2 rest

/-- Rising-edge sequence of a Boolean trace, written from the spec's words:
an event exactly on each False-to-True transition of the per-frame predicate,
threaded through a single persisted boolean. -/
def risingEdges (prev : Bool) : List Bool → List Bool
  | [] => []
  | b :: rest => (b && !prev) :: risingEdges b rest

/-- Claim C7: the alert-flag sequence of the overcrowding detector equals the
rising-edge sequence of the `count > threshold` predicate threaded through
the single persisted boolean, and with threshold 5 and the constructor's
initial `alert_active = False` the count sequence `[3, 8, 8, 3, 8]` yields
`[False, True, False, False, True]`. -/
theorem c7_overcrowding_edges :
    (∀ (thr : ℤ) (counts : List ℤ) (active : Bool),
      runOvercrowding ⟨thr, active⟩ counts =
        risingEdges active (counts.map (fun c => decide (thr < c)))) ∧
    runOvercrowding ⟨5, false⟩ [3, 8, 8, 3, 8] = [false, true, false, false, true] := by
  constructor
  · intro thr counts
    induction counts with
    | nil => intro active; rfl
    | cons c rest ih =>
      intro active
      simp only [runOvercrowding, detectOvercrowding, List.map_cons, risingEdges]
      rw [ih]
  · rfl

/-- Result fields of `detect_zone_violation` relevant to the claims. -/
structure ZoneRes where
  isViolation : Bool
  violatedZones : List ℕ
  alertTriggered : Bool
deriving DecidableEq

/-- Indices of the zones containing the point, as collected by the
`enumerate(zone_polygons)` loop of `detect_zone_violation`
(zone_violation.py lines 87-89).  Polygon containment is delegated by the
source to shapely's `Polygon.contains` (external to the repository), so it
is the oracle parameter `inPoly`. -/
def violatedZoneIdxs (inPoly : List (ℚ × ℚ) → ℚ × ℚ → Bool) (pt : ℚ × ℚ)
    (polys : List (List (ℚ × ℚ))) : List ℕ :=
  (List.range polys.length).filter (fun i => inPoly (polys.getD i []) pt)

/-- Embedding of `ZoneViolationDetector.detect_zone_violation`
(zone_violation.py lines 61-109): `violating` is the `violating_tracks` edge
set, `tid` the optional `track_id`; an empty zone list returns early, and the
edge set is touched only when a `track_id` is supplied. -/
def detectZoneViolation (inPoly : List (ℚ × ℚ) → ℚ × ℚ → Bool) (violating : List ℕ)
    (pt : ℚ × ℚ) (polys : List (List (ℚ × ℚ))) (tid : Option ℕ) :
    ZoneRes × List ℕ :=
  if polys.length = 0 then (⟨false, [], false⟩, violating)
  else
    let vz := violatedZoneIdxs inPoly pt polys
    let isV : Bool := decide (0 < vz.length)
    match tid with
    | none => (⟨isV, vz, false⟩, violating)
    | some x =>
      if isV && !(violating.contains x) then (⟨isV, vz, true⟩, x :: violating)
      else if !isV && violating.contains x then (⟨isV, vz, false⟩, violating.erase x)
      else (⟨isV, vz, false⟩, violating)

/-- Claim C10: a zone-violation check with `track_id = None` leaves the
per-track edge state unchanged and returns `alert_triggered = False`, no
matter where the point lies, and the `is_violation` flag and violated-zone
index list are independent of the edge state (they depend only on the point
and the zone list). -/
theorem c10_zone_none_pure (inPoly : List (ℚ × ℚ) → ℚ × ℚ → Bool) (violating : List ℕ)
    (pt : ℚ × ℚ) (polys : List (List (ℚ × ℚ))) :
    (detectZoneViolation inPoly violating pt polys none).2 = violating ∧
    (detectZoneViolation inPoly violating pt polys none).1.alertTriggered = false ∧
    ∀ violating2 : List ℕ,
      (detectZoneViolation inPoly violating2 pt polys none).1.isViolation =
          (detectZoneViolation inPoly violating pt polys none).1.isViolation ∧
        (detectZoneViolation inPoly violating2 pt polys none).1.violatedZones =
          (detectZoneViolation inPoly violating pt polys none).1.violatedZones := by
  unfold detectZoneViolation
  split <;> simp

/-- Bookkeeping fields of a `KalmanTracker` (deepsort.py lines 54-59).  The
numeric Kalman state lives in filterpy's `KalmanFilter` (an external
library); the bounding box its `predict()` returns enters the embedding as a
per-frame oracle input (`FrameIn.preds`). -/
structure Track where
  id : ℕ
  tsu : ℕ
  hits : ℕ
  hitStreak : ℕ
  age : ℕ
deriving DecidableEq

/-- A predicted floating-point entry: finite (idealised rational), NaN, or an
infinity (sign irrelevant to the control flow).  `np.isnan` is true only on
NaN; `np.ma.masked_invalid` masks NaN and infinities alike. -/
inductive FP where
  | fin (q : ℚ)
  | nan
  | inf
deriving DecidableEq

def FP.isNaN : FP → Bool
  | .nan => true
  | _ => false

def FP.isFinite : FP → Bool
  | .fin _ => true
  | _ => false

/-- The test `np.any(np.isnan(pos))` on a predicted position
(deepsort.py line 145). -/
def hasNaN (p : List FP) : Bool := p.any FP.isNaN

/-- Row survival under `np.ma.compress_rows(np.ma.masked_invalid(trks))`
(deepsort.py line 148): a row is kept iff every entry is finite (the row's
appended fifth entry `0` always is). -/
def allFinite (p : List FP) : Bool := p.all FP.isFinite

def fpVal : FP → ℚ
  | .fin q => q
  | _ => 0

/-- Box view of a predicted row; the junk defaults only ever feed rows that
passed `allFinite`. -/
def fpBox (p : List FP) : Box :=
  ⟨fpVal (p.getD 0 (.fin 0)), fpVal (p.getD 1 (.fin 0)),
    fpVal (p.getD 2 (.fin 0)), fpVal (p.getD 3 (.fin 0))⟩

/-- State of one `DeepSORT` session (deepsort.py lines 109-122).  The source
keeps the id counter in the class variable `KalmanTracker.count`; here it is
a session field, as the spec scopes it (a fresh process starts it at 0). -/
structure DS where
  maxAge : ℕ
  minHits : ℕ
  iouThr : ℚ
  trackers : List Track
  count : ℕ
  frameCount : ℕ
deriving DecidableEq

/-- Oracle inputs of one `DeepSORT.update` call: the frame's detection boxes
(`update` never reads the confidence entry `det[4]`) and, for each tracker
index, the bounding box its `predict()` returned. -/
structure FrameIn where
  dets : List Box
  preds : ℕ → List FP

/-- Default frame used by positional reads (`List.getD`) in run statements. -/
def frDefault : FrameIn := ⟨[], fun _ => []⟩

/-- Bookkeeping effect of `KalmanTracker.predict` (deepsort.py lines 68-77):
`age += 1`; `hit_streak` resets to 0 when `time_since_update > 0`;
`time_since_update += 1`. -/
def predictStep (tr : Track) : Track :=
  { tr with age := tr.age + 1,
            hitStreak := if 0 < tr.tsu then 0 else tr.hitStreak,
            tsu := tr.tsu + 1 }

/-- Bookkeeping effect of `KalmanTracker.update` (deepsort.py lines 61-66):
`time_since_update = 0`; `hits += 1`; `hit_streak += 1`. -/
def updateHit (tr : Track) : Track :=
  { tr with tsu := 0, hits := tr.hits + 1, hitStreak := tr.hitStreak + 1 }

/-- A fresh `KalmanTracker` (deepsort.py lines 54-59): the id is the current
counter value, all other bookkeeping fields start at 0. -/
def newTrack (c : ℕ) : Track := ⟨c, 0, 0, 0, 0⟩

/-- In-place element update, as in `self.trackers[m[1]].update(...)`. -/
def modifyIdx : List Track → ℕ → (Track → Track) → List Track
  | [], _, _ => []
  | a :: l, 0, f => f a :: l
  | a :: l, i + 1, f => a :: modifyIdx l i f

/-- The tracker list after the `to_del` pops of `DeepSORT.update`
(deepsort.py lines 140-150): every tracker is `predict`-ed, then exactly the
trackers whose predicted position contains a NaN are popped. -/
def survivors (s : DS) (fr : FrameIn) : List Track :=
  (((s.trackers.map predictStep).enum).filter
    (fun p => !(hasNaN (fr.preds p.1)))).map Prod.snd

/-- The predicted rows handed to the association step (deepsort.py line 148):
rows with every entry finite survive `masked_invalid` + `compress_rows`. -/
def assocRows (s : DS) (fr : FrameIn) : List (List FP) :=
  ((List.range s.trackers.length).map fr.preds).filter allFinite

/-- One `DeepSORT.update` call (deepsort.py lines 124-180): predict and pop,
associate detections with the surviving rows, update matched trackers in
place, create a fresh tracker (with the next id) per unmatched detection,
and prune trackers with `time_since_update >= max_age`.  The returned-track
list (lines 167-175) reads but never changes the state and is not needed by
the claims. -/
def dsStep (lsa : List (List ℚ) → List (ℕ × ℕ)) (s : DS) (fr : FrameIn) : DS :=
  let trk1 := survivors s fr
  let rows := (assocRows s fr).map fpBox
  let ar := associate lsa fr.dets rows s.iouThr
  let trk2 := ar.1.foldl (fun l m => modifyIdx l m.2 updateHit) trk1
  let grown := ar.2.1.foldl
    (fun (p : List Track × ℕ) _ => (p.1 ++ [newTrack p.2], p.2 + 1)) (trk2, s.count)
  { s with trackers := grown.1.filter (fun tr => decide (tr.tsu < s.maxAge)),
           count := grown.2,
           frameCount := s.frameCount + 1 }

/-- Ids issued during one `update` call, in creation order (deepsort.py
lines 162-164: one fresh tracker per unmatched detection). -/
def issuedStep (lsa : List (List ℚ) → List (ℕ × ℕ)) (s : DS) (fr : FrameIn) : List ℕ :=
  (List.range (associate lsa fr.dets ((assocRows s fr).map fpBox) s.iouThr).2.1.length).map
    (fun k => s.count + k)

/-- A session run: a fold of `update` calls. -/
def runDS (lsa : List (List ℚ) → List (ℕ × ℕ)) (s : DS) (frames : List FrameIn) : DS :=
  frames.foldl (dsStep lsa) s

/-- All ids issued along a run, in issuance order. -/
def issuedRun (lsa : List (List ℚ) → List (ℕ × ℕ)) (s : DS) : List FrameIn → List ℕ
  | [] => []
  | fr :: rest => issuedStep lsa s fr ++ issuedRun lsa (dsStep lsa s fr) rest

/-- A fresh session with the given configuration (deepsort.py lines 109-122). -/
def initDS (maxAge minHits : ℕ) (iouThr : ℚ) : DS := ⟨maxAge, minHits, iouThr, [], 0, 0⟩

/-- Session invariant: live ids are below the counter and pairwise distinct. -/
def DSInv (s : DS) : Prop :=
  (∀ tr ∈ s.trackers, tr.id < s.count) ∧ (s.trackers.map Track.id).Nodup

/-- The track with id `x`, if live. -/
def getTrack (x : ℕ) (s : DS) : Option Track := s.trackers.find? (fun tr => tr.id == x)

/-- All predictions of the frame are finite on the live tracker indices. -/
def FrameFinite (s : DS) (fr : FrameIn) : Prop :=
  ∀ t < s.trackers.length, allFinite (fr.preds t) = true

/-- The track with id `x` is left unmatched by the frame's association. -/
def UnmatchedId (lsa : List (List ℚ) → List (ℕ × ℕ)) (x : ℕ) (s : DS) (fr : FrameIn) : Prop :=
  ∀ m ∈ (associate lsa fr.dets ((assocRows s fr).map fpBox) s.iouThr).1,
    (s.trackers[m.2]?).map Track.id ≠ some x

lemma foldl_grow (um : List ℕ) (l : List Track) (c : ℕ) :
    um.foldl (fun (p : List Track × ℕ) _ => (p.1 ++ [newTrack p.2], p.2 + 1)) (l, c) =
      (l ++ (List.range um.length).map (fun k => newTrack (c + k)), c + um.length) := by
  induction um generalizing l c with
  | nil => simp
  | cons u um ih =>
    rw [List.foldl_cons, ih]
    have h1 : (List.range (um.length + 1)).map (fun k => newTrack (c + k)) =
        newTrack c :: (List.range um.length).map (fun k => newTrack (c + 1 + k)) := by
      rw [List.range_succ_eq_map, List.map_cons, List.map_map]
      congr 1
      apply List.map_congr_left
      intro k _
      show newTrack (c + (k + 1)) = newTrack (c + 1 + k)
      congr 1
      omega
    rw [Prod.mk.injEq]
    constructor
    · rw [List.length_cons, h1]
      simp [List.append_assoc]
    · rw [List.length_cons]
      omega

lemma modifyIdx_map_id (l : List Track) (i : ℕ) :
    (modifyIdx l i updateHit).map Track.id = l.map Track.id := by
  induction l generalizing i with
  | nil => rfl
  | cons a l ih =>
    cases i with
    | zero => rfl
    | succ i =>
      rw [show modifyIdx (a :: l) (i + 1) updateHit = a :: modifyIdx l i updateHit from rfl]
      rw [List.map_cons, List.map_cons, ih]

lemma foldl_modify_map_id (ms : List (ℕ × ℕ)) (l : List Track) :
    (ms.foldl (fun l m => modifyIdx l m.2 updateHit) l).map Track.id = l.map Track.id := by
  induction ms generalizing l with
  | nil => rfl
  | cons m ms ih =>
    rw [List.foldl_cons, ih, modifyIdx_map_id]

lemma survivors_sublist (s : DS) (fr : FrameIn) :
    ((survivors s fr).map Track.id).Sublist (s.trackers.map Track.id) := by
  have h1 : (survivors s fr).Sublist (s.trackers.map predictStep) := by
    unfold survivors
    have h2 : ((((s.trackers.map predictStep).enum).filter
        (fun p => !(hasNaN (fr.preds p.1)))).map Prod.snd).Sublist
        (((s.trackers.map predictStep).enum).map Prod.snd) :=
      List.Sublist.map Prod.snd (List.filter_sublist _)
    rw [List.enum_map_snd] at h2
    exact h2
  have h4 := h1.map Track.id
  rw [List.map_map] at h4
  have hco : Track.id ∘ predictStep = Track.id := funext (fun tr => rfl)
  rw [hco] at h4
  exact h4

lemma dsStep_count (lsa : List (List ℚ) → List (ℕ × ℕ)) (s : DS) (fr : FrameIn) :
    (dsStep lsa s fr).count =
      s.count + (associate lsa fr.dets ((assocRows s fr).map fpBox) s.iouThr).2.1.length := by
  simp only [dsStep]
  rw [foldl_grow]

lemma dsStep_trackers (lsa : List (List ℚ) → List (ℕ × ℕ)) (s : DS) (fr : FrameIn) :
    (dsStep lsa s fr).trackers =
      ((associate lsa fr.dets ((assocRows s fr).map fpBox) s.iouThr).1.foldl
          (fun l m => modifyIdx l m.2 updateHit) (survivors s fr) ++
        (List.range
            (associate lsa fr.dets ((assocRows s fr).map fpBox) s.iouThr).2.1.length).map
          (fun k => newTrack (s.count + k))).filter
        (fun tr => decide (tr.tsu < s.maxAge)) := by
  simp only [dsStep]
  rw [foldl_grow]

lemma dsStep_maxAge (lsa : List (List ℚ) → List (ℕ × ℕ)) (s : DS) (fr : FrameIn) :
    (dsStep lsa s fr).maxAge = s.maxAge := rfl

lemma dsStep_count_le (lsa : List (List ℚ) → List (ℕ × ℕ)) (s : DS) (fr : FrameIn) :
    s.count ≤ (dsStep lsa s fr).count := by
  rw [dsStep_count]
  omega

lemma inv_step (lsa : List (List ℚ) → List (ℕ × ℕ)) {s : DS} (fr : FrameIn)
    (h : DSInv s) : DSInv (dsStep lsa s fr) := by
  obtain ⟨hbound, hnodup⟩ := h
  constructor
  · intro tr htr
    rw [dsStep_trackers] at htr
    rw [dsStep_count]
    have htr2 := List.mem_of_mem_filter htr
    rcases List.mem_append.mp htr2 with hl | hr
    · have hmem : tr.id ∈ ((associate lsa fr.dets ((assocRows s fr).map fpBox) s.iouThr).1.foldl
          (fun l m => modifyIdx l m.2 updateHit) (survivors s fr)).map Track.id :=
        List.mem_map_of_mem Track.id hl
      rw [foldl_modify_map_id] at hmem
      have hmem2 := (survivors_sublist s fr).subset hmem
      rw [List.mem_map] at hmem2
      obtain ⟨u, hu, hid⟩ := hmem2
      have := hbound u hu
      omega
    · rw [List.mem_map] at hr
      obtain ⟨k, hk, hkeq⟩ := hr
      rw [List.mem_range] at hk
      have : tr.id = s.count + k := by rw [← hkeq]; rfl
      omega
  · rw [dsStep_trackers]
    apply List.Nodup.sublist ((List.filter_sublist _).map Track.id)
    rw [List.map_append, List.nodup_append]
    refine ⟨?_, ?_, ?_⟩
    · rw [foldl_modify_map_id]
      exact List.Nodup.sublist (survivors_sublist s fr) hnodup
    · rw [List.map_map]
      have hco : Track.id ∘ (fun k => newTrack (s.count + k)) = fun k => s.count + k := rfl
      rw [hco]
      apply List.Nodup.map
      · intro a b hab
        have hab2 : s.count + a = s.count + b := hab
        omega
      · exact List.nodup_range _
    · rw [List.disjoint_left]
      intro a ha1 ha2
      rw [foldl_modify_map_id] at ha1
      have ha1b := (survivors_sublist s fr).subset ha1
      rw [List.mem_map] at ha1b
      obtain ⟨u, hu, hid⟩ := ha1b
      have hlt := hbound u hu
      rw [List.map_map] at ha2
      have hco : Track.id ∘ (fun k => newTrack (s.count + k)) = fun k => s.count + k := rfl
      rw [hco, List.mem_map] at ha2
      obtain ⟨k, _, hk⟩ := ha2
      have hk2 : s.count + k = a := hk
      omega

lemma issuedStep_pairwise (lsa : List (List ℚ) → List (ℕ × ℕ)) (s : DS) (fr : FrameIn) :
    (issuedStep lsa s fr).Pairwise (· < ·) := by
  unfold issuedStep
  refine (List.pairwise_lt_range _).map (fun k => s.count + k) ?_
  intro a b hab
  show s.count + a < s.count + b
  omega

lemma issuedStep_bounds (lsa : List (List ℚ) → List (ℕ × ℕ)) (s : DS) (fr : FrameIn)
    {x : ℕ} (hx : x ∈ issuedStep lsa s fr) :
    s.count ≤ x ∧ x < (dsStep lsa s fr).count := by
  unfold issuedStep at hx
  rw [List.mem_map] at hx
  obtain ⟨k, hk, hkeq⟩ := hx
  rw [List.mem_range] at hk
  have hkeq2 : s.count + k = x := hkeq
  rw [dsStep_count]
  omega

lemma issuedRun_lb (lsa : List (List ℚ) → List (ℕ × ℕ)) (s : DS) (frames : List FrameIn)
    {x : ℕ} (hx : x ∈ issuedRun lsa s frames) : s.count ≤ x := by
  induction frames generalizing s with
  | nil => cases hx
  | cons fr rest ih =>
    rw [issuedRun, List.mem_append] at hx
    rcases hx with h | h
    · exact (issuedStep_bounds lsa s fr h).1
    · exact le_trans (dsStep_count_le lsa s fr) (ih _ h)

lemma issuedRun_pairwise (lsa : List (List ℚ) → List (ℕ × ℕ)) (s : DS)
    (frames : List FrameIn) : (issuedRun lsa s frames).Pairwise (· < ·) := by
  induction frames generalizing s with
  | nil => exact List.Pairwise.nil
  | cons fr rest ih =>
    rw [issuedRun, List.pairwise_append]
    refine ⟨issuedStep_pairwise lsa s fr, ih _, ?_⟩
    intro a ha b hb
    have h1 := (issuedStep_bounds lsa s fr ha).2
    have h2 := issuedRun_lb lsa (dsStep lsa s fr) rest hb
    omega

lemma inv_run (lsa : List (List ℚ) → List (ℕ × ℕ)) (s : DS) (frames : List FrameIn)
    (h : DSInv s) : DSInv (runDS lsa s frames) := by
  induction frames generalizing s with
  | nil => exact h
  | cons fr rest ih => exact ih _ (inv_step lsa fr h)

lemma runDS_count_le (lsa : List (List ℚ) → List (ℕ × ℕ)) (s : DS) (frames : List FrameIn) :
    s.count ≤ (runDS lsa s frames).count := by
  induction frames generalizing s with
  | nil => exact le_refl _
  | cons fr rest ih => exact le_trans (dsStep_count_le lsa s fr) (ih _)

lemma runDS_maxAge (lsa : List (List ℚ) → List (ℕ × ℕ)) (s : DS) (frames : List FrameIn) :
    (runDS lsa s frames).maxAge = s.maxAge := by
  induction frames generalizing s with
  | nil => rfl
  | cons fr rest ih => exact ih _

/-- Claim C1: over any session started fresh (empty tracker list, counter 0)
and any sequence of `update` calls — with arbitrary detections, arbitrary
Kalman predictions and an arbitrary optimal-assignment collaborator — the
ids issued to newly created tracks are strictly increasing in issuance order
(hence unique, hence never reused after their track's removal), and the live
set's ids are pairwise distinct after every prefix of the run. -/
theorem c1_ids_strictly_increasing (lsa : List (List ℚ) → List (ℕ × ℕ))
    (maxAge minHits : ℕ) (iouThr : ℚ) (frames : List FrameIn) :
    (issuedRun lsa (initDS maxAge minHits iouThr) frames).Pairwise (· < ·) ∧
    ∀ k, (((runDS lsa (initDS maxAge minHits iouThr) (frames.take k)).trackers).map
      Track.id).Nodup := by
  constructor
  · exact issuedRun_pairwise lsa _ frames
  · intro k
    have hinv : DSInv (initDS maxAge minHits iouThr) := by
      constructor
      · intro tr htr
        cases htr
      · exact List.Pairwise.nil
    exact (inv_run lsa _ (frames.take k) hinv).2

/-- Session used by the C8 evaluation: one live track (id 0, just created),
counter 1, the default configuration `max_age=30, min_hits=3,
iou_threshold=0.3`. -/
def c8State : DS := ⟨30, 3, 3 / 10, [⟨0, 0, 0, 0, 0⟩], 1, 0⟩

/-- Frame whose single prediction contains an infinity but no NaN. -/
def c8FrameInf : FrameIn := ⟨[], fun _ => [FP.inf, FP.fin 0, FP.fin 0, FP.fin 0]⟩

/-- Frame whose single prediction contains a NaN. -/
def c8FrameNaN : FrameIn := ⟨[], fun _ => [FP.nan, FP.fin 0, FP.fin 0, FP.fin 0]⟩

/-- Claim C8 states the intent (spec section 7) but the code diverges on
infinities: a track whose prediction contains an infinity and no NaN loses
its row in the association matrix (`masked_invalid` masks infinities,
deepsort.py line 148) yet stays in `self.trackers` (`to_del` collects only
`np.isnan` hits, line 145), so after this update call the live set still
holds the track — one live tracker against zero association rows, and the
index alignment between `self.trackers` and the rows is broken.  A NaN
prediction, by contrast, is dropped from both. -/
theorem c8_inf_track_not_dropped :
    survivors c8State c8FrameInf = [⟨0, 1, 0, 0, 1⟩] ∧
    assocRows c8State c8FrameInf = [] ∧
    (dsStep lsaOneByOne c8State c8FrameInf).trackers = [⟨0, 1, 0, 0, 1⟩] ∧
    survivors c8State c8FrameNaN = [] ∧
    assocRows c8State c8FrameNaN = [] := by
  refine ⟨rfl, rfl, rfl, rfl, rfl⟩

lemma not_hasNaN_of_allFinite {p : List FP} (h : allFinite p = true) : hasNaN p = false := by
  unfold allFinite at h
  rw [List.all_eq_true] at h
  unfold hasNaN
  rw [List.any_eq_false]
  intro y hy
  have hfin := h y hy
  cases y with
  | fin q => simp [FP.isNaN]
  | nan => simp [FP.isFinite] at hfin
  | inf => simp [FP.isNaN]

lemma survivors_of_finite {s : DS} {fr : FrameIn} (hfin : FrameFinite s fr) :
    survivors s fr = s.trackers.map predictStep := by
  unfold survivors
  have hall : ∀ p ∈ (s.trackers.map predictStep).enum,
      (!(hasNaN (fr.preds p.1))) = true := by
    intro p hp
    obtain ⟨i, v⟩ := p
    have h := List.mem_enum hp
    have hi : i < s.trackers.length := by
      have := h.1
      rwa [List.length_map] at this
    rw [Bool.not_eq_true']
    exact not_hasNaN_of_allFinite (hfin i hi)
  rw [List.filter_eq_self.mpr hall, List.enum_map_snd]

lemma modifyIdx_getElem_ne (l : List Track) (j : ℕ) (f : Track → Track) (i : ℕ) (h : j ≠ i) :
    (modifyIdx l j f)[i]? = l[i]? := by
  induction l generalizing i j with
  | nil => rfl
  | cons a l ih =>
    cases j with
    | zero =>
      cases i with
      | zero => exact absurd rfl h
      | succ i =>
        rw [show modifyIdx (a :: l) 0 f = f a :: l from rfl]
        rw [List.getElem?_cons_succ, List.getElem?_cons_succ]
    | succ j =>
      cases i with
      | zero =>
        rw [show modifyIdx (a :: l) (j + 1) f = a :: modifyIdx l j f from rfl]
        rw [List.getElem?_cons_zero, List.getElem?_cons_zero]
      | succ i =>
        rw [show modifyIdx (a :: l) (j + 1) f = a :: modifyIdx l j f from rfl]
        rw [List.getElem?_cons_succ, List.getElem?_cons_succ]
        exact ih j i (by omega)

lemma foldl_modify_getElem_ne (ms : List (ℕ × ℕ)) (l : List Track) (i : ℕ)
    (h : ∀ m ∈ ms, m.2 ≠ i) :
    (ms.foldl (fun l m => modifyIdx l m.2 updateHit) l)[i]? = l[i]? := by
  induction ms generalizing l with
  | nil => rfl
  | cons m ms ih =>
    rw [List.foldl_cons]
    rw [ih (modifyIdx l m.2 updateHit) (fun m2 hm2 => h m2 (List.mem_cons_of_mem m hm2))]
    exact modifyIdx_getElem_ne l m.2 updateHit i (h m (List.mem_cons_self m ms))

lemma find?_eq_some_of_unique {l : List Track} {x : ℕ} {v : Track}
    (hv : v ∈ l) (hid : v.id = x) (huniq : ∀ u ∈ l, u.id = x → u = v) :
    l.find? (fun tr => tr.id == x) = some v := by
  induction l with
  | nil => cases hv
  | cons a l ih =>
    by_cases ha : a.id = x
    · rw [List.find?_cons_of_pos _ (by simp [ha])]
      exact congrArg some (huniq a (List.mem_cons_self a l) ha)
    · rw [List.find?_cons_of_neg _ (by simp [ha])]
      apply ih
      · rcases List.mem_cons.mp hv with h | h
        · rw [← h] at ha
          exact absurd hid ha
        · exact h
      · intro u hu hux
        exact huniq u (List.mem_cons_of_mem a hu) hux

lemma step_unmatched (lsa : List (List ℚ) → List (ℕ × ℕ)) {s : DS} {fr : FrameIn}
    {x : ℕ} {tr : Track}
    (hInv : DSInv s) (hfin : FrameFinite s fr)
    (htr : getTrack x s = some tr) (hum : UnmatchedId lsa x s fr) :
    getTrack x (dsStep lsa s fr) =
      if tr.tsu + 1 < s.maxAge then some (predictStep tr) else none := by
  obtain ⟨hbound, hnodup⟩ := hInv
  have htrmem : tr ∈ s.trackers := List.mem_of_find?_eq_some htr
  have hid : tr.id = x := by simpa using List.find?_some htr
  have hxlt : x < s.count := hid ▸ hbound tr htrmem
  obtain ⟨i, hi⟩ := List.mem_iff_get?.mp htrmem
  rw [List.get?_eq_getElem?] at hi
  have hsurv : survivors s fr = s.trackers.map predictStep := survivors_of_finite hfin
  unfold getTrack
  rw [dsStep_trackers]
  set M := (associate lsa fr.dets ((assocRows s fr).map fpBox) s.iouThr).1 with hM
  set news := (List.range
      (associate lsa fr.dets ((assocRows s fr).map fpBox) s.iouThr).2.1.length).map
    (fun k => newTrack (s.count + k)) with hnews
  set trk2 := M.foldl (fun l m => modifyIdx l m.2 updateHit) (survivors s fr) with htrk2
  have hmne : ∀ m ∈ M, m.2 ≠ i := by
    intro m hm hcon
    apply hum m hm
    rw [hcon, hi]
    simp [hid]
  have htrk2i : trk2[i]? = some (predictStep tr) := by
    rw [htrk2, foldl_modify_getElem_ne M (survivors s fr) i hmne, hsurv,
      List.getElem?_map, hi]
    rfl
  have hids : trk2.map Track.id = s.trackers.map Track.id := by
    rw [htrk2, foldl_modify_map_id, hsurv, List.map_map]
    have hco : Track.id ∘ predictStep = Track.id := rfl
    rw [hco]
  have hv_id : (predictStep tr).id = x := hid
  have hvmem : predictStep tr ∈ trk2 := by
    obtain ⟨hlen, heq⟩ := List.getElem?_eq_some.mp htrk2i
    rw [← heq]
    exact List.getElem_mem hlen
  have huniq : ∀ u ∈ trk2 ++ news, u.id = x → u = predictStep tr := by
    intro u hu hux
    rcases List.mem_append.mp hu with h2 | h3
    · obtain ⟨j, hj⟩ := List.mem_iff_get?.mp h2
      rw [List.get?_eq_getElem?] at hj
      have hj2 : (trk2.map Track.id)[j]? = some x := by
        rw [List.getElem?_map, hj]
        simp [hux]
      have hi2 : (trk2.map Track.id)[i]? = some x := by
        rw [List.getElem?_map, htrk2i]
        simp [hv_id]
      have hnodup2 : (trk2.map Track.id).Nodup := by
        rw [hids]
        exact hnodup
      have hjlen : j < (trk2.map Track.id).length := by
        rw [List.getElem?_eq_some] at hj2
        exact hj2.1
      have hij : j = i := List.getElem?_inj hjlen hnodup2 (by rw [hj2, hi2])
      rw [hij, htrk2i] at hj
      exact (Option.some_inj.mp hj).symm
    · rw [hnews, List.mem_map] at h3
      obtain ⟨k, hk, hkeq⟩ := h3
      have hidk : u.id = s.count + k := by
        rw [← hkeq]
        rfl
      omega
  by_cases hcond : tr.tsu + 1 < s.maxAge
  · rw [if_pos hcond]
    apply find?_eq_some_of_unique
    · apply List.mem_filter.mpr
      refine ⟨List.mem_append_left news hvmem, ?_⟩
      rw [decide_eq_true_iff]
      show tr.tsu + 1 < s.maxAge
      exact hcond
    · exact hv_id
    · intro u hu hux
      exact huniq u (List.mem_of_mem_filter hu) hux
  · rw [if_neg hcond]
    rw [List.find?_eq_none]
    intro u hu
    by_cases hux : u.id = x
    · have hueq := huniq u (List.mem_of_mem_filter hu) hux
      have hp := (List.mem_filter.mp hu).2
      rw [hueq] at hp
      rw [decide_eq_true_iff] at hp
      have htsu : (predictStep tr).tsu = tr.tsu + 1 := rfl
      omega
    · simp [hux]

lemma step_absent (lsa : List (List ℚ) → List (ℕ × ℕ)) {s : DS} {fr : FrameIn} {x : ℕ}
    (_hbound : ∀ tr ∈ s.trackers, tr.id < s.count) (hx : x < s.count)
    (h : getTrack x s = none) : getTrack x (dsStep lsa s fr) = none := by
  unfold getTrack at h ⊢
  rw [List.find?_eq_none] at h ⊢
  intro u hu
  rw [dsStep_trackers] at hu
  have hu2 := List.mem_of_mem_filter hu
  rcases List.mem_append.mp hu2 with h2 | h3
  · have hmem : u.id ∈ ((associate lsa fr.dets ((assocRows s fr).map fpBox) s.iouThr).1.foldl
        (fun l m => modifyIdx l m.2 updateHit) (survivors s fr)).map Track.id :=
      List.mem_map_of_mem Track.id h2
    rw [foldl_modify_map_id] at hmem
    have hmem2 := (survivors_sublist s fr).subset hmem
    rw [List.mem_map] at hmem2
    obtain ⟨w, hw, hwid⟩ := hmem2
    have hwx := h w hw
    simp only [beq_iff_eq] at hwx ⊢
    rw [← hwid]
    exact hwx
  · rw [List.mem_map] at h3
    obtain ⟨k, hk, hkeq⟩ := h3
    have hidk : u.id = s.count + k := by
      rw [← hkeq]
      rfl
    simp only [beq_iff_eq]
    omega

lemma runDS_take_succ (lsa : List (List ℚ) → List (ℕ × ℕ)) (s : DS)
    (frames : List FrameIn) (k : ℕ) (hk : k < frames.length) :
    runDS lsa s (frames.take (k + 1)) =
      dsStep lsa (runDS lsa s (frames.take k)) (frames.getD k frDefault) := by
  show (frames.take (k + 1)).foldl (dsStep lsa) s = _
  rw [List.take_succ, List.getElem?_eq_getElem hk]
  rw [show (some frames[k]).toList = [frames[k]] from rfl]
  rw [List.foldl_append]
  rw [List.getD_eq_getElem frames frDefault hk]
  rfl

/-- Claim C2: in any session state satisfying the id invariant, with
`max_age` at least 1, a live track with `time_since_update = 0` that stays
unmatched in every following frame (with finite predictions) is still live
with `time_since_update = j` after `j < max_age` such frames, is removed on
exactly the frame where the counter first reaches `max_age`, and is absent
from the live set on every later frame no matter what the later frames do. -/
theorem c2_removal_at_max_age (lsa : List (List ℚ) → List (ℕ × ℕ)) (s : DS) (x : ℕ)
    (tr : Track) (frames : List FrameIn)
    (hInv : DSInv s) (hAge : 1 ≤ s.maxAge)
    (htr : getTrack x s = some tr) (h0 : tr.tsu = 0)
    (hcond : ∀ k, k < frames.length → k < s.maxAge →
      FrameFinite (runDS lsa s (frames.take k)) (frames.getD k frDefault) ∧
      UnmatchedId lsa x (runDS lsa s (frames.take k)) (frames.getD k frDefault)) :
    ∀ j ≤ frames.length,
      (j < s.maxAge → ∃ u, getTrack x (runDS lsa s (frames.take j)) = some u ∧ u.tsu = j) ∧
      (s.maxAge ≤ j → getTrack x (runDS lsa s (frames.take j)) = none) := by
  have hxlt : x < s.count := by
    have htrmem := List.mem_of_find?_eq_some htr
    have hid : tr.id = x := by simpa using List.find?_some htr
    exact hid ▸ hInv.1 tr htrmem
  intro j
  induction j with
  | zero =>
    intro _
    constructor
    · intro _
      exact ⟨tr, htr, h0⟩
    · intro hge
      omega
  | succ j ih =>
    intro hj1
    have hjle : j ≤ frames.length := by omega
    have ihj := ih hjle
    have hkj : j < frames.length := by omega
    have hinvj : DSInv (runDS lsa s (frames.take j)) := inv_run lsa s _ hInv
    have hmaxj : (runDS lsa s (frames.take j)).maxAge = s.maxAge := runDS_maxAge lsa s _
    have hcntj : s.count ≤ (runDS lsa s (frames.take j)).count := runDS_count_le lsa s _
    rw [runDS_take_succ lsa s frames j hkj]
    constructor
    · intro hlt
      have hjlt : j < s.maxAge := by omega
      obtain ⟨u, hu, hutsu⟩ := ihj.1 hjlt
      obtain ⟨hfin, hunm⟩ := hcond j hkj hjlt
      have hstep := step_unmatched lsa hinvj hfin hu hunm
      rw [hstep, if_pos (show u.tsu + 1 < (runDS lsa s (frames.take j)).maxAge by
        rw [hmaxj]; omega)]
      refine ⟨predictStep u, rfl, ?_⟩
      show u.tsu + 1 = j + 1
      omega
    · intro hge
      by_cases hcase : s.maxAge ≤ j
      · have habs := ihj.2 hcase
        exact step_absent lsa hinvj.1 (by omega) habs
      · have hjlt : j < s.maxAge := by omega
        obtain ⟨u, hu, hutsu⟩ := ihj.1 hjlt
        obtain ⟨hfin, hunm⟩ := hcond j hkj hjlt
        have hstep := step_unmatched lsa hinvj hfin hu hunm
        rw [hstep, if_neg (show ¬(u.tsu + 1 < (runDS lsa s (frames.take j)).maxAge) by
          rw [hmaxj]; omega)]

/-- Session used by the C2 witness: one live track with
`time_since_update = 0`, `max_age = 2`. -/
def c2State : DS := ⟨2, 3, 3 / 10, [⟨0, 0, 0, 0, 0⟩], 1, 0⟩

/-- Three empty-detection frames with finite predictions. -/
def c2Frames : List FrameIn :=
  List.replicate 3 ⟨[], fun _ => [FP.fin 0, FP.fin 0, FP.fin 0, FP.fin 0]⟩

/-- Witness for `c2_removal_at_max_age`: the unmatched track survives frame 1
with `time_since_update = 1`, is removed on frame 2 (where the counter first
reaches `max_age = 2`), and stays absent on frame 3. -/
theorem c2_removal_witness :
    (∃ u, getTrack 0 (runDS lsaOneByOne c2State (c2Frames.take 1)) = some u ∧ u.tsu = 1) ∧
    getTrack 0 (runDS lsaOneByOne c2State (c2Frames.take 2)) = none ∧
    getTrack 0 (runDS lsaOneByOne c2State (c2Frames.take 3)) = none := by
  have h := c2_removal_at_max_age lsaOneByOne c2State 0 ⟨0, 0, 0, 0, 0⟩ c2Frames
    (by constructor
        · intro tr htr
          rw [show c2State.trackers = [⟨0, 0, 0, 0, 0⟩] from rfl] at htr
          rcases List.mem_singleton.mp htr with rfl
          decide
        · decide)
    (by decide) (by decide) (by decide)
    (by intro k hk1 hk2
        have hk3 : k < 2 := hk2
        interval_cases k <;>
          exact ⟨by unfold FrameFinite; decide, by unfold UnmatchedId; decide⟩)
  exact ⟨(h 1 (by decide)).1 (by decide), (h 2 (by decide)).2 (by decide),
    (h 3 (by decide)).2 (by decide)⟩

/-- State of a `LoiteringDetector` (loitering.py lines 16-32): configuration,
per-track position history `(x, y, frame_number)` (a `defaultdict`, embedded
as a total function with default `[]`), and the `loitering_tracks` edge set. -/
structure LoitState where
  pixelThreshold : ℚ
  frameThreshold : ℕ
  fps : ℕ
  history : ℕ → List (ℚ × ℚ × ℕ)
  loitering : List ℕ

/-- Fresh detector: `frame_threshold = time_threshold * fps`, empty history
and empty loitering set (loitering.py lines 25-32). -/
def loitInit (pixelThreshold : ℚ) (timeThreshold fps : ℕ) : LoitState :=
  ⟨pixelThreshold, timeThreshold * fps, fps, fun _ => [], []⟩

/-- Embedding of `LoiteringDetector.update_track` (loitering.py lines 34-48):
append the position, then keep only the most recent
`frame_threshold + 100` entries. -/
def updateTrackPos (s : LoitState) (tid : ℕ) (pt : ℚ × ℚ) (frameNum : ℕ) : LoitState :=
  let h := s.history tid ++ [(pt.1, pt.2, frameNum)]
  let maxH := s.frameThreshold + 100
  let h2 := if maxH < h.length then h.drop (h.length - maxH) else h
  { s with history := fun t => if t = tid then h2 else s.history t }

/-- Squared Euclidean distance between two points. -/
def distSq (a b : ℚ × ℚ) : ℚ := (a.1 - b.1) ^ 2 + (a.2 - b.2) ^ 2

/-- Centroid of the stored positions (`np.mean(coords, axis=0)`,
loitering.py line 123). -/
def meanPt (ps : List (ℚ × ℚ × ℕ)) : ℚ × ℚ :=
  ((ps.map (fun p => p.1)).sum / ps.length, (ps.map (fun p => p.2.1)).sum / ps.length)

/-- Nonempty maximum, `np.max` style; the source's guards keep every use
nonempty. -/
def npMaxQ : List ℚ → ℚ
  | [] => 0
  | x :: xs => xs.foldl max x

/-- Embedding of `LoiteringDetector._calculate_movement`
(loitering.py lines 107-129), squared: the source returns
`max_i sqrt(d_i)` over the squared distances `d_i` to the centroid; this
returns `max_i d_i`, which `detectLoitering` below compares against the
squared threshold — equivalent because the square root is monotone on the
nonnegative distances. -/
def movementSq (ps : List (ℚ × ℚ × ℕ)) : ℚ :=
  if ps.length < 2 then 0
  else npMaxQ (ps.map (fun p => distSq (p.1, p.2.1) (meanPt ps)))

/-- Result fields of `detect_loitering` relevant to the claims. -/
structure LoitRes where
  isLoitering : Bool
  durationFrames : ℕ
  alertTriggered : Bool
deriving DecidableEq

/-- Embedding of `LoiteringDetector.detect_loitering`
(loitering.py lines 50-105) at its default call (no per-call overrides, so
the stored configuration applies).  The source compares
`max_distance < pixel_threshold` over real square roots; this is embedded as
`0 < pixel_threshold ∧ movementSq < pixel_threshold^2`, equivalent because a
square root is nonnegative (a nonpositive threshold never loiters) and
squaring preserves the strict inequality for a positive threshold. -/
def detectLoitering (s : LoitState) (tid : ℕ) : LoitRes × LoitState :=
  let tp := s.history tid
  if tp.length < s.frameThreshold then
    (⟨false, tp.length, false⟩, s)
  else
    let recent := tp.drop (tp.length - s.frameThreshold)
    let isL : Bool := decide (0 < s.pixelThreshold ∧ movementSq recent < s.pixelThreshold ^ 2)
    let inSet := s.loitering.contains tid
    let alert := isL && !inSet
    let loit2 := if isL && !inSet then tid :: s.loitering
      else if !isL && inSet then s.loitering.erase tid
      else s.loitering
    (⟨isL, recent.length, alert⟩, { s with loitering := loit2 })

lemma detectLoitering_of_lt {s : LoitState} {tid : ℕ}
    (hlt : (s.history tid).length < s.frameThreshold) :
    detectLoitering s tid = (⟨false, (s.history tid).length, false⟩, s) := by
  unfold detectLoitering
  rw [if_pos hlt]

lemma detectLoitering_of_ge {s : LoitState} {tid : ℕ}
    (hge : s.frameThreshold ≤ (s.history tid).length) :
    detectLoitering s tid =
      (⟨decide (0 < s.pixelThreshold ∧
          movementSq ((s.history tid).drop ((s.history tid).length - s.frameThreshold)) <
            s.pixelThreshold ^ 2),
        ((s.history tid).drop ((s.history tid).length - s.frameThreshold)).length,
        decide (0 < s.pixelThreshold ∧
          movementSq ((s.history tid).drop ((s.history tid).length - s.frameThreshold)) <
            s.pixelThreshold ^ 2) && !(s.loitering.contains tid)⟩,
      { s with loitering :=
        if decide (0 < s.pixelThreshold ∧
            movementSq ((s.history tid).drop ((s.history tid).length - s.frameThreshold)) <
              s.pixelThreshold ^ 2) && !(s.loitering.contains tid) then
          tid :: s.loitering
        else if !(decide (0 < s.pixelThreshold ∧
            movementSq ((s.history tid).drop ((s.history tid).length - s.frameThreshold)) <
              s.pixelThreshold ^ 2)) && s.loitering.contains tid then
          s.loitering.erase tid
        else s.loitering }) := by
  unfold detectLoitering
  rw [if_neg (by omega)]

lemma foldl_max_lt_iff (xs : List ℚ) (a c : ℚ) :
    xs.foldl max a < c ↔ a < c ∧ ∀ y ∈ xs, y < c := by
  induction xs generalizing a with
  | nil => simp
  | cons b xs ih =>
    rw [List.foldl_cons, ih, max_lt_iff]
    constructor
    · rintro ⟨⟨h1, h2⟩, h3⟩
      refine ⟨h1, ?_⟩
      intro y hy
      rcases List.mem_cons.mp hy with rfl | hy2
      · exact h2
      · exact h3 y hy2
    · rintro ⟨h1, h2⟩
      exact ⟨⟨h1, h2 b (List.mem_cons_self b xs)⟩,
        fun y hy => h2 y (List.mem_cons_of_mem b hy)⟩

lemma movementSq_lt_iff (ps : List (ℚ × ℚ × ℕ)) (c : ℚ) (hne : ps ≠ []) :
    movementSq ps < c ↔ ∀ q ∈ ps, distSq (q.1, q.2.1) (meanPt ps) < c := by
  cases ps with
  | nil => exact absurd rfl hne
  | cons a tl =>
    cases tl with
    | nil =>
      have hmean : meanPt [a] = (a.1, a.2.1) := by
        unfold meanPt
        simp
      rw [show movementSq [a] = 0 from rfl]
      constructor
      · intro h q hq
        rcases List.mem_singleton.mp hq with rfl
        rw [hmean]
        simpa [distSq] using h
      · intro h
        have := h a (List.mem_singleton_self a)
        rw [hmean] at this
        simpa [distSq] using this
    | cons b t =>
      have hguard : ¬ ((a :: b :: t).length < 2) := by
        simp
      unfold movementSq
      rw [if_neg hguard]
      rw [List.map_cons]
      rw [show npMaxQ (distSq (a.1, a.2.1) (meanPt (a :: b :: t)) ::
          (b :: t).map (fun p => distSq (p.1, p.2.1) (meanPt (a :: b :: t)))) =
        ((b :: t).map (fun p => distSq (p.1, p.2.1) (meanPt (a :: b :: t)))).foldl max
          (distSq (a.1, a.2.1) (meanPt (a :: b :: t))) from rfl]
      rw [foldl_max_lt_iff]
      constructor
      · rintro ⟨h1, h2⟩ q hq
        rcases List.mem_cons.mp hq with rfl | hq2
        · exact h1
        · exact h2 _ (List.mem_map_of_mem _ hq2)
      · intro h
        refine ⟨h a (List.mem_cons_self _ _), ?_⟩
        intro y hy
        rw [List.mem_map] at hy
        obtain ⟨q, hq, rfl⟩ := hy
        exact h q (List.mem_cons_of_mem a hq)

lemma sum_of_const (l : List ℚ) (a : ℚ) (h : ∀ y ∈ l, y = a) : l.sum = l.length * a := by
  induction l with
  | nil => simp
  | cons b l ih =>
    rw [List.sum_cons, ih (fun y hy => h y (List.mem_cons_of_mem b hy)),
      h b (List.mem_cons_self b l), List.length_cons]
    push_cast
    ring

lemma foldl_max_const (xs : List ℚ) (a : ℚ) (h : ∀ y ∈ xs, y ≤ a) : xs.foldl max a = a := by
  induction xs generalizing a with
  | nil => rfl
  | cons b xs ih =>
    rw [List.foldl_cons, max_eq_left (h b (List.mem_cons_self b xs))]
    exact ih a (fun y hy => h y (List.mem_cons_of_mem b hy))

lemma movementSq_const (ps : List (ℚ × ℚ × ℕ)) (a b : ℚ)
    (h : ∀ q ∈ ps, q.1 = a ∧ q.2.1 = b) : movementSq ps = 0 := by
  unfold movementSq
  split
  · rfl
  · next hlen =>
    have hn : (ps.length : ℚ) ≠ 0 := by
      have : 2 ≤ ps.length := by omega
      positivity
    have hmean : meanPt ps = (a, b) := by
      unfold meanPt
      rw [sum_of_const (ps.map (fun p => p.1)) a
        (by intro y hy; rw [List.mem_map] at hy; obtain ⟨q, hq, rfl⟩ := hy; exact (h q hq).1)]
      rw [sum_of_const (ps.map (fun p => p.2.1)) b
        (by intro y hy; rw [List.mem_map] at hy; obtain ⟨q, hq, rfl⟩ := hy; exact (h q hq).2)]
      rw [List.length_map, List.length_map]
      rw [mul_comm (ps.length : ℚ) a, mul_comm (ps.length : ℚ) b]
      rw [mul_div_assoc, mul_div_assoc, div_self hn, mul_one, mul_one]
    have hzero : ∀ y ∈ ps.map (fun p => distSq (p.1, p.2.1) (meanPt ps)), y = 0 := by
      intro y hy
      rw [List.mem_map] at hy
      obtain ⟨q, hq, rfl⟩ := hy
      rw [hmean, (h q hq).1, (h q hq).2]
      simp [distSq]
    cases hps : ps.map (fun p => distSq (p.1, p.2.1) (meanPt ps)) with
    | nil => rfl
    | cons y ys =>
      rw [show npMaxQ (y :: ys) = ys.foldl max y from rfl]
      have hy0 : y = 0 := hzero y (by rw [hps]; exact List.mem_cons_self y ys)
      rw [hy0]
      apply foldl_max_const
      intro z hz
      have : z = 0 := hzero z (by rw [hps]; exact List.mem_cons_of_mem y hz)
      exact le_of_eq this

lemma updateTrackPos_fields (s : LoitState) (tid : ℕ) (pt : ℚ × ℚ) (fnum : ℕ)
    (hlen : (s.history tid).length + 1 ≤ s.frameThreshold + 100) :
    (updateTrackPos s tid pt fnum).history tid = s.history tid ++ [(pt.1, pt.2, fnum)] ∧
    (updateTrackPos s tid pt fnum).pixelThreshold = s.pixelThreshold ∧
    (updateTrackPos s tid pt fnum).frameThreshold = s.frameThreshold ∧
    (updateTrackPos s tid pt fnum).loitering = s.loitering := by
  have hc : ¬ (s.frameThreshold + 100 < (s.history tid ++ [(pt.1, pt.2, fnum)]).length) := by
    rw [List.length_append]
    simp only [List.length_cons, List.length_nil]
    omega
  refine ⟨?_, rfl, rfl, rfl⟩
  show (if tid = tid then
      if s.frameThreshold + 100 < (s.history tid ++ [(pt.1, pt.2, fnum)]).length then
        (s.history tid ++ [(pt.1, pt.2, fnum)]).drop
          ((s.history tid ++ [(pt.1, pt.2, fnum)]).length - (s.frameThreshold + 100))
      else s.history tid ++ [(pt.1, pt.2, fnum)]
    else s.history tid) = s.history tid ++ [(pt.1, pt.2, fnum)]
  rw [if_pos rfl, if_neg hc]

/-- The C5 scenario: per frame, feed track 1 the point `(100, 100)` and run
the check, on a detector configured with `pixel_threshold = 50`,
`time_threshold = 10` s, `fps = 30` (so `frame_threshold = 300`). -/
def loitScen : ℕ → LoitRes × LoitState
  | 0 => (⟨false, 0, false⟩, loitInit 50 10 30)
  | n + 1 =>
    detectLoitering (updateTrackPos (loitScen n).2 1 (100, 100) (n + 1)) 1

lemma loitScen_state : ∀ n, n ≤ 399 →
    (loitScen n).2.pixelThreshold = 50 ∧
    (loitScen n).2.frameThreshold = 300 ∧
    (loitScen n).2.history 1 = (List.range n).map (fun i => ((100 : ℚ), (100 : ℚ), i + 1)) ∧
    (loitScen n).2.loitering = (if n < 300 then [] else [1]) ∧
    (300 ≤ n → (loitScen n).1.isLoitering = true ∧
      (loitScen n).1.alertTriggered = decide (n = 300)) := by
  intro n
  induction n with
  | zero =>
    intro _
    refine ⟨rfl, rfl, rfl, rfl, ?_⟩
    intro h
    omega
  | succ n ih =>
    intro hn
    obtain ⟨hp, hf, hh, hl, _⟩ := ih (by omega)
    have hlen0 : ((loitScen n).2.history 1).length = n := by
      rw [hh, List.length_map, List.length_range]
    obtain ⟨hu1, hu2, hu3, hu4⟩ := updateTrackPos_fields (loitScen n).2 1 (100, 100) (n + 1)
      (by rw [hlen0, hf]; omega)
    set st2 := updateTrackPos (loitScen n).2 1 (100, 100) (n + 1) with hst2
    have hh2 : st2.history 1 =
        (List.range (n + 1)).map (fun i => ((100 : ℚ), (100 : ℚ), i + 1)) := by
      rw [hu1, hh, List.range_succ, List.map_append]
      rfl
    have hlen2 : (st2.history 1).length = n + 1 := by
      rw [hh2, List.length_map, List.length_range]
    have hstep : loitScen (n + 1) = detectLoitering st2 1 := rfl
    by_cases hcase : n + 1 < 300
    · have hdet := detectLoitering_of_lt
        (show (st2.history 1).length < st2.frameThreshold by rw [hlen2, hu3, hf]; omega)
      rw [hstep, hdet]
      refine ⟨?_, ?_, ?_, ?_, ?_⟩
      · show st2.pixelThreshold = 50
        rw [hu2, hp]
      · show st2.frameThreshold = 300
        rw [hu3, hf]
      · show st2.history 1 = _
        exact hh2
      · show st2.loitering = _
        rw [if_pos hcase, hu4, hl, if_pos (by omega)]
      · intro h300
        omega
    · have hge : st2.frameThreshold ≤ (st2.history 1).length := by
        rw [hlen2, hu3, hf]
        omega
      have hdet := detectLoitering_of_ge hge
      have hconst : ∀ q ∈ (st2.history 1).drop ((st2.history 1).length - st2.frameThreshold),
          q.1 = (100 : ℚ) ∧ q.2.1 = (100 : ℚ) := by
        intro q hq
        have hq2 := List.mem_of_mem_drop hq
        rw [hh2, List.mem_map] at hq2
        obtain ⟨i, _, rfl⟩ := hq2
        exact ⟨rfl, rfl⟩
      have hmov := movementSq_const _ 100 100 hconst
      have hisL : decide (0 < st2.pixelThreshold ∧
          movementSq ((st2.history 1).drop ((st2.history 1).length - st2.frameThreshold)) <
            st2.pixelThreshold ^ 2) = true := by
        rw [decide_eq_true_iff, hmov, hu2, hp]
        norm_num
      rw [hstep, hdet]
      by_cases heq : n + 1 = 300
      · have hl0 : st2.loitering = [] := by
          rw [hu4, hl, if_pos (by omega)]
        refine ⟨?_, ?_, ?_, ?_, ?_⟩
        · show st2.pixelThreshold = 50
          rw [hu2, hp]
        · show st2.frameThreshold = 300
          rw [hu3, hf]
        · show st2.history 1 = _
          exact hh2
        · show (if (decide (0 < st2.pixelThreshold ∧
              movementSq ((st2.history 1).drop ((st2.history 1).length - st2.frameThreshold)) <
                st2.pixelThreshold ^ 2) && !(st2.loitering.contains 1)) then
              1 :: st2.loitering
            else if (!(decide (0 < st2.pixelThreshold ∧
                movementSq ((st2.history 1).drop
                  ((st2.history 1).length - st2.frameThreshold)) <
                  st2.pixelThreshold ^ 2)) && st2.loitering.contains 1) then
              st2.loitering.erase 1
            else st2.loitering) = (if n + 1 < 300 then [] else [1])
          rw [hisL, hl0, if_neg hcase]
          simp
        · intro _
          constructor
          · show (decide (0 < st2.pixelThreshold ∧
                movementSq ((st2.history 1).drop
                  ((st2.history 1).length - st2.frameThreshold)) <
                  st2.pixelThreshold ^ 2)) = true
            exact hisL
          · show (decide (0 < st2.pixelThreshold ∧
                movementSq ((st2.history 1).drop
                  ((st2.history 1).length - st2.frameThreshold)) <
                  st2.pixelThreshold ^ 2) && !(st2.loitering.contains 1)) = decide (n + 1 = 300)
            rw [hisL, hl0]
            simp [heq]
      · have hl1 : st2.loitering = [1] := by
          rw [hu4, hl, if_neg (by omega)]
        refine ⟨?_, ?_, ?_, ?_, ?_⟩
        · show st2.pixelThreshold = 50
          rw [hu2, hp]
        · show st2.frameThreshold = 300
          rw [hu3, hf]
        · show st2.history 1 = _
          exact hh2
        · show (if (decide (0 < st2.pixelThreshold ∧
              movementSq ((st2.history 1).drop ((st2.history 1).length - st2.frameThreshold)) <
                st2.pixelThreshold ^ 2) && !(st2.loitering.contains 1)) then
              1 :: st2.loitering
            else if (!(decide (0 < st2.pixelThreshold ∧
                movementSq ((st2.history 1).drop
                  ((st2.history 1).length - st2.frameThreshold)) <
                  st2.pixelThreshold ^ 2)) && st2.loitering.contains 1) then
              st2.loitering.erase 1
            else st2.loitering) = (if n + 1 < 300 then [] else [1])
          rw [hisL, hl1, if_neg hcase]
          simp
        · intro _
          constructor
          · show (decide (0 < st2.pixelThreshold ∧
                movementSq ((st2.history 1).drop
                  ((st2.history 1).length - st2.frameThreshold)) <
                  st2.pixelThreshold ^ 2)) = true
            exact hisL
          · show (decide (0 < st2.pixelThreshold ∧
                movementSq ((st2.history 1).drop
                  ((st2.history 1).length - st2.frameThreshold)) <
                  st2.pixelThreshold ^ 2) && !(st2.loitering.contains 1)) = decide (n + 1 = 300)
            rw [hisL, hl1]
            simp [heq]

/-- Claim C5: a loitering check whose stored history is shorter than
`frame_threshold` reports not-loitering with no alert; otherwise
`is_loitering` holds exactly when every one of the last `frame_threshold`
samples lies strictly within `pixel_threshold` of their centroid
(equivalently, the maximum distance is below the threshold; distances are
squared here, see `detectLoitering`).  And in the concrete scenario
(`pixel_threshold = 50`, `time_threshold = 10` s, `fps = 30`, the constant
point `(100, 100)` fed every frame), the 300th check reports
`is_loitering = True` with `alert_triggered = True` and the 301st reports
`is_loitering = True` with `alert_triggered = False`. -/
theorem c5_loitering (s : LoitState) (tid : ℕ) (hft : 1 ≤ s.frameThreshold) :
    ((s.history tid).length < s.frameThreshold →
      (detectLoitering s tid).1.isLoitering = false ∧
      (detectLoitering s tid).1.alertTriggered = false) ∧
    (s.frameThreshold ≤ (s.history tid).length →
      ((detectLoitering s tid).1.isLoitering = true ↔
        0 < s.pixelThreshold ∧
        ∀ q ∈ (s.history tid).drop ((s.history tid).length - s.frameThreshold),
          distSq (q.1, q.2.1)
            (meanPt ((s.history tid).drop ((s.history tid).length - s.frameThreshold))) <
            s.pixelThreshold ^ 2)) ∧
    (loitScen 300).1.isLoitering = true ∧ (loitScen 300).1.alertTriggered = true ∧
    (loitScen 301).1.isLoitering = true ∧ (loitScen 301).1.alertTriggered = false := by
  refine ⟨?_, ?_, ?_, ?_, ?_, ?_⟩
  · intro hlt
    rw [detectLoitering_of_lt hlt]
    exact ⟨rfl, rfl⟩
  · intro hge
    have hlen : ((s.history tid).drop ((s.history tid).length - s.frameThreshold)).length =
        s.frameThreshold := by
      rw [List.length_drop]
      omega
    rw [detectLoitering_of_ge hge]
    show decide (0 < s.pixelThreshold ∧
        movementSq ((s.history tid).drop ((s.history tid).length - s.frameThreshold)) <
          s.pixelThreshold ^ 2) = true ↔ _
    rw [decide_eq_true_iff]
    apply and_congr_right
    intro _
    exact movementSq_lt_iff _ _ (by
      intro hcon
      rw [hcon] at hlen
      simp only [List.length_nil] at hlen
      omega)
  · exact ((loitScen_state 300 (by omega)).2.2.2.2 (by omega)).1
  · have h := ((loitScen_state 300 (by omega)).2.2.2.2 (by omega)).2
    rw [h]
    decide
  · exact ((loitScen_state 301 (by omega)).2.2.2.2 (by omega)).1
  · have h := ((loitScen_state 301 (by omega)).2.2.2.2 (by omega)).2
    rw [h]
    decide

/-- Witness for `c5_loitering` at a freshly configured detector
(`frame_threshold = 300`, empty history: the short-history branch) together
with the scenario's 300th-check alert. -/
theorem c5_loitering_witness :
    (detectLoitering (loitInit 50 10 30) 0).1.isLoitering = false ∧
    (loitScen 300).1.alertTriggered = true :=
  ⟨((c5_loitering (loitInit 50 10 30) 0 (by norm_num [loitInit])).1
      (by norm_num [loitInit])).1,
    (c5_loitering (loitInit 50 10 30) 0 (by norm_num [loitInit])).2.2.2.1⟩

/-- A pose keypoint `(x, y, visibility)` in original-frame pixel
coordinates (suspicious_activity.py line 84). -/
abbrev KP := ℚ × ℚ × ℚ

/-- Visibility-weighted speed of one joint across one frame transition
(suspicious_activity.py lines 199-205): Euclidean displacement
(`np.linalg.norm`, hence a real square root) times the mean visibility of
the two frames. -/
noncomputable def jointSpeed (p q : KP) : ℝ :=
  Real.sqrt (((q.1 - p.1) ^ 2 + (q.2.1 - p.2.1) ^ 2 : ℚ) : ℝ) * (((p.2.2 + q.2.2) / 2 : ℚ) : ℝ)

/-- Embedding of `SuspiciousActivityDetector._calculate_joint_velocities`
(suspicious_activity.py lines 179-209): one weighted speed per joint per
consecutive frame pair, flattened in transition-major order (the python
loop `extend`s per transition). -/
noncomputable def jointVels (seq : List (List KP)) : List ℝ :=
  if seq.length < 2 then []
  else (seq.zip seq.tail).flatMap
    (fun pc => (pc.1.zip pc.2).map (fun pq => jointSpeed pq.1 pq.2))

/-- Embedding of `_calculate_specific_joint_velocities`
(suspicious_activity.py lines 211-240).  The source guards
`joint_idx < len(prev_kp)` and then indexes the current frame too; frames in
the pose pipeline are fixed-size 33-keypoint arrays, and the theorems only
use uniform-length frames, so the totalising `getD` default is inert. -/
noncomputable def specificJointVels (seq : List (List KP)) (idxs : List ℕ) : List ℝ :=
  if seq.length < 2 then []
  else (seq.zip seq.tail).flatMap
    (fun pc => idxs.filterMap (fun j =>
      if j < pc.1.length then
        some (jointSpeed (pc.1.getD j (0, 0, 0)) (pc.2.getD j (0, 0, 0)))
      else none))

/-- The arm joint indices — shoulders, elbows, wrists
(suspicious_activity.py line 145). -/
def armIndices : List ℕ := [11, 12, 13, 14, 15, 16]

/-- `np.max(velocities) if len(velocities) > 0 else 0.0`. -/
noncomputable def npMaxR : List ℝ → ℝ
  | [] => 0
  | x :: xs => xs.foldl max x

/-- `np.mean(velocities) if len(velocities) > 0 else 0.0`. -/
noncomputable def npMeanR (l : List ℝ) : ℝ :=
  if l.isEmpty then 0 else l.sum / l.length

open Classical in
/-- `np.mean(velocities > threshold)`: the fraction of values strictly above
the threshold, 0 on the empty list (suspicious_activity.py line 142). -/
noncomputable def npFracGT (l : List ℝ) (t : ℝ) : ℝ :=
  if l.isEmpty then 0 else (l.countP (fun x => decide (t < x)) : ℝ) / l.length

/-- Decision of `SuspiciousActivityDetector.detect_fight_like_motion`
(suspicious_activity.py lines 104-177) on an explicitly passed keypoint
sequence with the stored configuration: below `min_frames` buffered frames
the answer is negative, otherwise the most recent `min_frames` frames are
analysed and
`(max > t*1.2 ∧ mean > t*0.6 ∧ frac ≥ 0.25) ∨ (arm > t*1.4 ∧ frac ≥ 0.2)`. -/
noncomputable def detectFight (seq : List (List KP)) (t : ℝ) (minFrames : ℕ) : Prop :=
  if seq.length < minFrames then False
  else
    let recent := seq.drop (seq.length - minFrames)
    let v := jointVels recent
    let armV := npMeanR (specificJointVels recent armIndices)
    (npMaxR v > t * 1.2 ∧ npMeanR v > t * 0.6 ∧ npFracGT v t ≥ 0.25) ∨
      (armV > t * 1.4 ∧ npFracGT v t ≥ 0.2)

/-- Per-joint per-transition velocity by index, written from the spec's
words: the Euclidean displacement of joint `j` between consecutive frames
`i` and `i+1`, weighted by the mean visibility of the two frames. -/
noncomputable def specVel (seq : List (List KP)) (i j : ℕ) : ℝ :=
  jointSpeed ((seq.getD i []).getD j (0, 0, 0)) ((seq.getD (i + 1) []).getD j (0, 0, 0))

/-- All joints-times-transitions velocities of a 33-keypoint sequence,
written from the spec's words. -/
noncomputable def specVels (seq : List (List KP)) : List ℝ :=
  (List.range (seq.length - 1)).flatMap
    (fun i => (List.range 33).map (fun j => specVel seq i j))

/-- The same velocities restricted to the six arm joints. -/
noncomputable def specArmVels (seq : List (List KP)) : List ℝ :=
  (List.range (seq.length - 1)).flatMap (fun i => armIndices.map (fun j => specVel seq i j))

/-- The claim's decision formula over the spec-side velocities of the most
recent `min_frames` frames (with the spec's minimum-buffer requirement as a
conjunct). -/
noncomputable def specSuspicious (seq : List (List KP)) (t : ℝ) (minFrames : ℕ) : Prop :=
  minFrames ≤ seq.length ∧
  ((npMaxR (specVels (seq.drop (seq.length - minFrames))) > t * 1.2 ∧
      npMeanR (specVels (seq.drop (seq.length - minFrames))) > t * 0.6 ∧
      npFracGT (specVels (seq.drop (seq.length - minFrames))) t ≥ 0.25) ∨
    (npMeanR (specArmVels (seq.drop (seq.length - minFrames))) > t * 1.4 ∧
      npFracGT (specVels (seq.drop (seq.length - minFrames))) t ≥ 0.2))

lemma zip_map_getD (g : KP → KP → ℝ) (la lb : List KP) (n : ℕ)
    (ha : la.length = n) (hb : lb.length = n) :
    (la.zip lb).map (fun pq => g pq.1 pq.2) =
      (List.range n).map (fun j => g (la.getD j (0, 0, 0)) (lb.getD j (0, 0, 0))) := by
  induction n generalizing la lb with
  | zero =>
    rw [List.length_eq_zero] at ha hb
    subst ha
    subst hb
    rfl
  | succ n ih =>
    cases la with
    | nil => simp at ha
    | cons a la =>
      cases lb with
      | nil => simp at hb
      | cons b lb =>
        rw [List.range_succ_eq_map, List.map_cons, List.map_map]
        rw [show (a :: la).zip (b :: lb) = (a, b) :: la.zip lb from rfl, List.map_cons]
        congr 1
        rw [ih la lb (by simpa using ha) (by simpa using hb)]
        apply List.map_congr_left
        intro j _
        show g (la.getD j (0, 0, 0)) (lb.getD j (0, 0, 0)) =
          g ((a :: la).getD (j + 1) (0, 0, 0)) ((b :: lb).getD (j + 1) (0, 0, 0))
        rw [List.getD_cons_succ, List.getD_cons_succ]


lemma flatMap_congr_fn {α β : Type _} (l : List α) (f g : α → List β)
    (h : ∀ a ∈ l, f a = g a) : l.flatMap f = l.flatMap g := by
  induction l with
  | nil => rfl
  | cons a l ih =>
    rw [List.flatMap_cons, List.flatMap_cons, h a (List.mem_cons_self a l),
      ih (fun x hx => h x (List.mem_cons_of_mem a hx))]

lemma jointVels_eq_specVels (s : List (List KP)) (h : ∀ f ∈ s, f.length = 33) :
    jointVels s = specVels s := by
  induction s with
  | nil => rfl
  | cons a tl ih =>
    cases tl with
    | nil => rfl
    | cons b t =>
      have hguard : ¬ ((a :: b :: t).length < 2) := by simp
      have ha33 : a.length = 33 := h a (List.mem_cons_self a (b :: t))
      have hb33 : b.length = 33 := h b (List.mem_cons_of_mem a (List.mem_cons_self b t))
      unfold jointVels
      rw [if_neg hguard]
      rw [show (a :: b :: t).zip (a :: b :: t).tail = (a, b) :: ((b :: t).zip t) from rfl]
      rw [List.flatMap_cons]
      have hrhs : specVels (a :: b :: t) =
          (List.range 33).map (fun j => specVel (a :: b :: t) 0 j) ++ specVels (b :: t) := by
        unfold specVels
        rw [show (a :: b :: t).length - 1 = ((b :: t).length - 1) + 1 by simp]
        rw [List.range_succ_eq_map, List.flatMap_cons, List.flatMap_map]
        congr 1
      rw [hrhs]
      congr 1
      · rw [zip_map_getD jointSpeed a b 33 ha33 hb33]
        apply List.map_congr_left
        intro j _
        show jointSpeed (a.getD j (0, 0, 0)) (b.getD j (0, 0, 0)) = specVel (a :: b :: t) 0 j
        unfold specVel
        rw [show (a :: b :: t).getD 0 [] = a from List.getD_cons_zero]
        rw [show (a :: b :: t).getD 1 [] = b by
          rw [List.getD_cons_succ, List.getD_cons_zero]]
      · cases t with
        | nil => rfl
        | cons c t2 =>
          rw [← ih (fun f hf => h f (List.mem_cons_of_mem a hf))]
          unfold jointVels
          rw [if_neg (by simp)]
          rfl

lemma specificJointVels_eq_specArmVels (s : List (List KP)) (h : ∀ f ∈ s, f.length = 33) :
    specificJointVels s armIndices = specArmVels s := by
  induction s with
  | nil => rfl
  | cons a tl ih =>
    cases tl with
    | nil => rfl
    | cons b t =>
      have hguard : ¬ ((a :: b :: t).length < 2) := by simp
      have ha33 : a.length = 33 := h a (List.mem_cons_self a (b :: t))
      unfold specificJointVels
      rw [if_neg hguard]
      rw [show (a :: b :: t).zip (a :: b :: t).tail = (a, b) :: ((b :: t).zip t) from rfl]
      rw [List.flatMap_cons]
      have hrhs : specArmVels (a :: b :: t) =
          armIndices.map (fun j => specVel (a :: b :: t) 0 j) ++ specArmVels (b :: t) := by
        unfold specArmVels
        rw [show (a :: b :: t).length - 1 = ((b :: t).length - 1) + 1 by simp]
        rw [List.range_succ_eq_map, List.flatMap_cons, List.flatMap_map]
        congr 1
      rw [hrhs]
      congr 1
      · rw [show ((a, b) : List KP × List KP).1.length = 33 from ha33]
        simp only [armIndices, List.filterMap_cons, List.filterMap_nil]
        norm_num [specVel, List.getD_cons_zero, List.getD_cons_succ]
      · cases t with
        | nil => rfl
        | cons c t2 =>
          rw [← ih (fun f hf => h f (List.mem_cons_of_mem a hf))]
          unfold specificJointVels
          rw [if_neg (by simp)]
          rfl

/-- A static 33-keypoint frame: distinct joint positions, full visibility. -/
def staticFrame : List KP := (List.range 33).map (fun (i : ℕ) => ((i : ℚ), (0 : ℚ), (1 : ℚ)))

/-- Ten identical frames: every joint static. -/
def staticSeq : List (List KP) := List.replicate 10 staticFrame

lemma jointSpeed_self (p : KP) : jointSpeed p p = 0 := by
  unfold jointSpeed
  rw [sub_self, sub_self]
  norm_num

lemma zip_self_eq (l : List KP) : l.zip l = l.map (fun a => (a, a)) := by
  induction l with
  | nil => rfl
  | cons a l ih =>
    rw [show (a :: l).zip (a :: l) = (a, a) :: l.zip l from rfl, ih, List.map_cons]

lemma jointVels_static_zero : ∀ x ∈ jointVels staticSeq, x = 0 := by
  intro x hx
  unfold jointVels at hx
  rw [if_neg (by simp [staticSeq])] at hx
  rw [List.mem_flatMap] at hx
  obtain ⟨⟨p1, p2⟩, hpc, hxin⟩ := hx
  obtain ⟨hm1, hm2⟩ := List.of_mem_zip hpc
  have hp1 : p1 = staticFrame := List.eq_of_mem_replicate hm1
  have hp2 : p2 = staticFrame := List.eq_of_mem_replicate hm2
  rw [hp1, hp2] at hxin
  rw [zip_self_eq, List.map_map, List.mem_map] at hxin
  obtain ⟨a, _, rfl⟩ := hxin
  exact jointSpeed_self a

lemma armVels_static_zero : ∀ x ∈ specificJointVels staticSeq armIndices, x = 0 := by
  intro x hx
  unfold specificJointVels at hx
  rw [if_neg (by simp [staticSeq])] at hx
  rw [List.mem_flatMap] at hx
  obtain ⟨⟨p1, p2⟩, hpc, hxin⟩ := hx
  obtain ⟨hm1, hm2⟩ := List.of_mem_zip hpc
  have hp1 : p1 = staticFrame := List.eq_of_mem_replicate hm1
  have hp2 : p2 = staticFrame := List.eq_of_mem_replicate hm2
  rw [hp1, hp2] at hxin
  rw [List.mem_filterMap] at hxin
  obtain ⟨j, _, hj⟩ := hxin
  by_cases hlt : j < staticFrame.length
  · rw [if_pos hlt] at hj
    have := Option.some_inj.mp hj
    rw [← this]
    exact jointSpeed_self _
  · rw [if_neg hlt] at hj
    cases hj

lemma npFracGT_of_zeros (l : List ℝ) (t : ℝ) (ht : 0 < t) (h : ∀ x ∈ l, x = 0) :
    npFracGT l t = 0 := by
  unfold npFracGT
  split
  · rfl
  · rw [List.countP_eq_zero.mpr]
    · simp
    · intro a ha
      simp only [decide_eq_true_eq]
      rw [h a ha]
      linarith

lemma detectFight_static : ¬ detectFight staticSeq 15 10 := by
  unfold detectFight
  rw [if_neg (by simp [staticSeq])]
  have hdrop : staticSeq.drop (staticSeq.length - 10) = staticSeq := by
    rw [show staticSeq.length - 10 = 0 by simp [staticSeq]]
    rfl
  rw [hdrop]
  have hfrac : npFracGT (jointVels staticSeq) 15 = 0 :=
    npFracGT_of_zeros _ _ (by norm_num) jointVels_static_zero
  intro hcon
  rcases hcon with ⟨_, _, h3⟩ | ⟨_, h3⟩ <;> rw [hfrac] at h3 <;> norm_num at h3

/-- Claim C6: for every buffered keypoint sequence of 33-keypoint frames, the
code's suspicious-activity decision (negative below `min_frames` frames,
otherwise the velocity formula over the most recent `min_frames` frames)
coincides with the claim's formula
`(max > t*1.2 ∧ mean > t*0.6 ∧ frac ≥ 0.25) ∨ (arm > t*1.4 ∧ frac ≥ 0.2)`
over the visibility-weighted per-joint per-transition velocities; and the
ten-frame all-static sequence is not suspicious at the default
`velocity_threshold = 15`, `min_frames = 10`. -/
theorem c6_fight_decision (seq : List (List KP)) (t : ℝ) (m : ℕ)
    (h33 : ∀ f ∈ seq, f.length = 33) :
    (detectFight seq t m ↔ specSuspicious seq t m) ∧ ¬ detectFight staticSeq 15 10 := by
  refine ⟨?_, detectFight_static⟩
  by_cases hlen : seq.length < m
  · unfold detectFight specSuspicious
    rw [if_pos hlen]
    constructor
    · intro h
      exact h.elim
    · intro h
      have := h.1
      omega
  · unfold detectFight specSuspicious
    rw [if_neg hlen]
    have h33r : ∀ f ∈ seq.drop (seq.length - m), f.length = 33 :=
      fun f hf => h33 f (List.mem_of_mem_drop hf)
    show ((npMaxR (jointVels (seq.drop (seq.length - m))) > t * 1.2 ∧
        npMeanR (jointVels (seq.drop (seq.length - m))) > t * 0.6 ∧
        npFracGT (jointVels (seq.drop (seq.length - m))) t ≥ 0.25) ∨
      (npMeanR (specificJointVels (seq.drop (seq.length - m)) armIndices) > t * 1.4 ∧
        npFracGT (jointVels (seq.drop (seq.length - m))) t ≥ 0.2)) ↔ _
    rw [jointVels_eq_specVels _ h33r, specificJointVels_eq_specArmVels _ h33r]
    constructor
    · intro h
      exact ⟨by omega, h⟩
    · intro h
      exact h.2

/-- Witness for `c6_fight_decision` at the static sequence (all frames of
length 33) with the default threshold. -/
theorem c6_fight_decision_witness :
    (detectFight staticSeq 15 10 ↔ specSuspicious staticSeq 15 10) ∧
    ¬ detectFight staticSeq 15 10 :=
  c6_fight_decision staticSeq 15 10 (by
    intro f hf
    have h2 : f = staticFrame := List.eq_of_mem_replicate hf
    rw [h2]
    show staticFrame.length = 33
    unfold staticFrame
    rw [List.length_map, List.length_range])
